import Mathlib

/-!
# Word ladders: a shallow embedding of `Words.cpp`

The program reads two words and a dictionary, keeps the dictionary words that have the
length of the first word, links every two kept words that differ in exactly one letter and
searches a shortest chain between the two words with a simplified Dijkstra.

Embedding conventions.

* A `std::string` is the list of its characters (`Word`).
* A `std::vector` is a `List`; `v[i]` is `v.getD i _`, `v[i] = x` is `v.set i x`.
* `size_t` and `unsigned` values are natural numbers.  The only arithmetic on them is
  `++mismatch` (at most 2), `++currentScore` (performed only when `currentScore != UINT_MAX`,
  so it cannot wrap) and index arithmetic below `N * N`.  The 32-bit loop counters
  `auto i = 0u` can reach `words.size()` only when `words.size() <= UINT_MAX`; with more
  vertices the loops of `Dict::connect` never exit, and the model `Dict.connect` has no
  result there.
* A function that may read outside its data or may not terminate returns an `Option`;
  `none` stands for "no defined result".  The two `while (true)` loops take a fuel argument.
* Output to `std::cout` is not modelled, hence `connect` has no `screen` parameter.
-/

namespace Words

/-! ## Data model -/

/-- A word: the characters of a `std::string`. -/
abbrev Word := List Char

/-- The constant `UINT_MAX` of `<climits>` for a 32-bit `unsigned`. -/
def UINT_MAX : Nat := 4294967295

/-- The data members of `class Dict`. -/
structure Dict where
  words : List Word
  wordBegin : Word
  wordEnd : Word
  indFirst : Nat
  indLast : Nat
  seq : List Word
deriving DecidableEq

/-! ## `Dict::areNeighbours` -/

/-- The `for` loop of `Dict::areNeighbours`: the first argument is what is left of `s1`
from `it_s1` on, the second what is left of `s2` from `it_s2` on.  The loop runs until
`it_s1` reaches `s1.end()`; `*it_s2` is read at every step, which is not defined once `it_s2`
has reached `s2.end()`. -/
def areNeighboursLoop : Word → Word → Nat → Option Bool
  | [], _, mismatch => some (mismatch != 0)
  | _ :: _, [], _ => none
  | c1 :: r1, c2 :: r2, mismatch =>
    if c1 ≠ c2 then
      if mismatch + 1 > 1 then some false
      else areNeighboursLoop r1 r2 (mismatch + 1)
    else areNeighboursLoop r1 r2 mismatch

/-- Model of `Dict::areNeighbours(s1, s2)`. -/
def areNeighbours (s1 s2 : Word) : Option Bool :=
  areNeighboursLoop s1 s2 0

/-! ## Constructor and `Dict::push` -/

/-- Model of the constructor `Dict(wordBegin, wordEnd)`. -/
def Dict.new (wordBegin wordEnd : Word) : Dict :=
  { words := [], wordBegin := wordBegin, wordEnd := wordEnd,
    indFirst := UINT_MAX, indLast := UINT_MAX, seq := [] }

/-- Model of `Dict::push(word)`. -/
def Dict.push (d : Dict) (word : Word) : Dict :=
  if word.length ≠ d.wordBegin.length then d
  else
    let ind := d.words.length
    let d1 := { d with words := d.words ++ [word] }
    let d2 := if word = d.wordBegin then { d1 with indFirst := ind } else d1
    if word = d.wordEnd then { d2 with indLast := ind } else d2

/-- The dictionary loop of `readFiles`: every candidate is pushed in order. -/
def Dict.pushAll (d : Dict) (candidates : List Word) : Dict :=
  candidates.foldl Dict.push d

/-- The graph that `readFiles` builds for two anchors and a candidate list. -/
def build (wordBegin wordEnd : Word) (candidates : List Word) : Dict :=
  (Dict.new wordBegin wordEnd).pushAll candidates

/-! ## `Dict::connect` -/

/-- The inner loop `for (j = 0; j < i; ++j)` that fills row and column `i` of
`connections`. -/
def connectionsRow (words : List Word) (i : Nat) (connections : List Bool) :
    Option (List Bool) :=
  (List.range i).foldlM
    (fun conn j =>
      (areNeighbours (words.getD i []) (words.getD j [])).map
        (fun v => (conn.set (j + i * words.length) v).set (i + j * words.length) v))
    connections

/-- The loop of `Dict::connect` that fills the vector `connections`. -/
def buildConnections (words : List Word) : Option (List Bool) :=
  (List.range words.length).foldlM
    (fun conn i => connectionsRow words i (conn.set (i * (1 + words.length)) false))
    (List.replicate (words.length * words.length) false)

/-- The selection scan of `Dict::connect`, over the indices still to scan; the state is
`(currentScore, indVertex, usedVertex)`. -/
def selectLoop (score : List Nat) : List Nat → Nat × Nat × List Bool → Nat × Nat × List Bool
  | [], st => st
  | i :: rest, (currentScore, indVertex, usedVertex) =>
    if usedVertex.getD i false = true ∨ score.getD i 0 ≥ currentScore then
      selectLoop score rest (currentScore, indVertex, usedVertex)
    else
      selectLoop score rest (score.getD i 0, i, usedVertex.set i true)

/-- The relaxation loop of `Dict::connect`, over the indices `j` still to visit; the state
is `(score, previousVertex)` and `currentScore` is the value after `++currentScore`.  The
flag `scoreAssigned` of the source is never read and is left out. -/
def relaxLoop (N indVertex indLast currentScore : Nat) (connections : List Bool) :
    List Nat → List Nat × List Nat → List Nat × List Nat
  | [], st => st
  | j :: rest, (score, previousVertex) =>
    if score.getD j 0 > currentScore ∧ connections.getD (indVertex + j * N) false = true then
      if j = indLast then (score.set j currentScore, previousVertex.set j indVertex)
      else relaxLoop N indVertex indLast currentScore connections rest
        (score.set j currentScore, previousVertex.set j indVertex)
    else relaxLoop N indVertex indLast currentScore connections rest (score, previousVertex)

/-- The local variables of `Dict::connect` that live across the rounds of the search. -/
structure SearchState where
  score : List Nat
  previousVertex : List Nat
  usedVertex : List Bool
  indVertex : Nat
deriving DecidableEq

/-- One round of the search loop: the selection scan, then either the `break` (second
component `false`) or the relaxation of the neighbours of the selected vertex (second
component `true`: the loop goes on). -/
def searchRound (N indLast : Nat) (connections : List Bool) (st : SearchState) :
    SearchState × Bool :=
  match selectLoop st.score (List.range N) (UINT_MAX, st.indVertex, st.usedVertex) with
  | (currentScore, indVertex, usedVertex) =>
    if currentScore = UINT_MAX then
      ({ st with usedVertex := usedVertex, indVertex := indVertex }, false)
    else
      match relaxLoop N indVertex indLast (currentScore + 1) connections (List.range N)
          (st.score, st.previousVertex) with
      | (score, previousVertex) =>
        ({ score := score, previousVertex := previousVertex, usedVertex := usedVertex,
           indVertex := indVertex }, true)

/-- The search loop `while (true)` of `Dict::connect`, with fuel: the state at the `break`,
or `none` when the fuel is used up before the loop exits. -/
def searchLoop (N indLast : Nat) (connections : List Bool) : Nat → SearchState → Option SearchState
  | 0, _ => none
  | fuel + 1, st =>
    match searchRound N indLast connections st with
    | (st1, false) => some st1
    | (st1, true) => searchLoop N indLast connections fuel st1

/-- The local state of `Dict::connect` before the first round; `indVertex` is not
initialised in the source and is never read before the selection scan assigns it. -/
def initState (d : Dict) : SearchState :=
  { score := (List.replicate d.words.length UINT_MAX).set d.indFirst 0,
    previousVertex := List.replicate d.words.length UINT_MAX,
    usedVertex := List.replicate d.words.length false,
    indVertex := 0 }

/-- The first part of `Dict::connect` after the anchor check: the vector `connections`
and the state of the search at its `break`. -/
def search (d : Dict) : Option SearchState :=
  (buildConnections d.words).bind fun connections =>
    searchLoop d.words.length d.indLast connections (d.words.length + 1) (initState d)

/-- The reconstruction loop `while (true)` of `Dict::connect`, with fuel; `words[ind]` out
of range has no defined result. -/
def walkLoop (words : List Word) (previousVertex : List Nat) (indFirst : Nat) :
    Nat → Nat → List Word → Option (List Word)
  | 0, _, _ => none
  | fuel + 1, ind, seq =>
    match words[ind]? with
    | none => none
    | some w =>
      if ind = indFirst then some (seq ++ [w])
      else walkLoop words previousVertex indFirst fuel (previousVertex.getD ind 0) (seq ++ [w])

/-- The vertex indices that the reconstruction loop visits, in order: the same loop as
`walkLoop`, recording `ind` where the source records `words[ind]`. -/
def walkIndices (words : List Word) (previousVertex : List Nat) (indFirst : Nat) :
    Nat → Nat → List Nat → Option (List Nat)
  | 0, _, _ => none
  | fuel + 1, ind, visited =>
    match words[ind]? with
    | none => none
    | some _ =>
      if ind = indFirst then some (visited ++ [ind])
      else walkIndices words previousVertex indFirst fuel (previousVertex.getD ind 0)
        (visited ++ [ind])

/-- Model of `Dict::connect`: the returned code and the object afterwards.  With more than
`UINT_MAX` vertices the 32-bit counter of the first `for` loop never reaches
`words.size()`: no result. -/
def Dict.connect (d : Dict) : Option (Nat × Dict) :=
  if d.indFirst = UINT_MAX ∨ d.indLast = UINT_MAX then some (2, d)
  else if UINT_MAX < d.words.length then none
  else
    (search d).bind fun st =>
      if st.previousVertex.getD d.indLast 0 = UINT_MAX then some (3, d)
      else
        (walkLoop d.words st.previousVertex d.indFirst d.words.length d.indLast d.seq).map
          fun seq => (0, { d with seq := seq })


/-! ## Vocabulary of the specification -/

/-- The number of positions at which two words differ (positions counted over the first
word; for words of equal length these are the positions of both). -/
def diffCount (s1 s2 : Word) : Nat :=
  (List.range s1.length).countP (fun i => decide (s1[i]? ≠ s2[i]?))

/-- Two words of equal length that differ in exactly one character position. -/
def Adjacent (x y : Word) : Prop :=
  x.length = y.length ∧ diffCount x y = 1

instance (x y : Word) : Decidable (Adjacent x y) :=
  inferInstanceAs (Decidable (x.length = y.length ∧ diffCount x y = 1))

/-- A chain `l` of words of `words` from `first` to `last` in which every two consecutive
words are adjacent. -/
def IsLadder (words : List Word) (first last : Word) (l : List Word) : Prop :=
  l.head? = some first ∧ l.getLast? = some last ∧ (∀ w ∈ l, w ∈ words) ∧
    List.Chain' Adjacent l

/-! ## Invariants used in the proofs -/

/-- What `Dict::push` maintains: every vertex has the length of the begin word, and each
anchor index is `UINT_MAX` when the anchor is no vertex and points at the anchor
otherwise. -/
structure Dict.WF (d : Dict) : Prop where
  len : ∀ w ∈ d.words, w.length = d.wordBegin.length
  first_absent : d.wordBegin ∉ d.words → d.indFirst = UINT_MAX
  first_present : d.wordBegin ∈ d.words → d.words[d.indFirst]? = some d.wordBegin
  last_absent : d.wordEnd ∉ d.words → d.indLast = UINT_MAX
  last_present : d.wordEnd ∈ d.words → d.words[d.indLast]? = some d.wordEnd
  same : d.wordBegin = d.wordEnd → d.indFirst = d.indLast
  seq_nil : d.seq = []

/-- The value that `Dict::connect` stores in `connections` for the words number `i` and
`j` of a dictionary of words of one length. -/
def nbValue (words : List Word) (i j : Nat) : Bool :=
  decide (diffCount (words.getD i []) (words.getD j []) = 1)

/-- What one selection scan over the indices `is` guarantees about its result `r`, the
triple `(currentScore, indVertex, usedVertex)`, when started from `(cs0, iv0, used0)`. -/
structure SelectSpec (score : List Nat) (is : List Nat) (cs0 iv0 : Nat) (used0 : List Bool)
    (r : Nat × Nat × List Bool) : Prop where
  len : r.2.2.length = used0.length
  mono : ∀ i, used0.getD i false = true → r.2.2.getD i false = true
  marked : ∀ i, r.2.2.getD i false = true →
    used0.getD i false = true ∨ (i ∈ is ∧ score.getD i 0 < cs0)
  le : r.1 ≤ cs0
  same : r.1 = cs0 → r.2.2 = used0 ∧ r.2.1 = iv0
  sel : r.1 < cs0 → r.2.1 ∈ is ∧ used0.getD r.2.1 false = false ∧
    score.getD r.2.1 0 = r.1 ∧ r.2.2.getD r.2.1 false = true
  min : ∀ i ∈ is, used0.getD i false = false → r.1 ≤ score.getD i 0
  count_le : r.2.2.count false ≤ used0.count false
  count_lt : r.1 < cs0 → r.2.2.count false < used0.count false

/-- What one relaxation pass guarantees about its result `r`, the pair
`(score, previousVertex)`, when started from `(score0, prev0)`: every cell is either
untouched, or it was above `c`, is adjacent to the selected vertex `iv` and now holds `c`
with predecessor `iv`. -/
structure RelaxSpec (N iv c : Nat) (conn : List Bool) (score0 prev0 : List Nat)
    (r : List Nat × List Nat) : Prop where
  score_len : r.1.length = score0.length
  prev_len : r.2.length = prev0.length
  cell : ∀ j, (r.1.getD j 0 = score0.getD j 0 ∧ r.2.getD j 0 = prev0.getD j 0) ∨
    (c < score0.getD j 0 ∧ conn.getD (iv + j * N) false = true ∧
      r.1.getD j 0 = c ∧ r.2.getD j 0 = iv)

/-- The invariant of the search loop of `Dict::connect` over `N` vertices with source
`indFirst` and adjacency vector `conn`. -/
structure SearchInv (N indFirst : Nat) (conn : List Bool) (st : SearchState) : Prop where
  score_len : st.score.length = N
  prev_len : st.previousVertex.length = N
  used_len : st.usedVertex.length = N
  source : st.score.getD indFirst 0 = 0
  source_prev : st.previousVertex.getD indFirst 0 = UINT_MAX
  score_le : ∀ j, st.score.getD j 0 ≤ UINT_MAX
  used_finite : ∀ j, st.usedVertex.getD j false = true → st.score.getD j 0 < UINT_MAX
  layered : ∀ j i, st.score.getD j 0 < UINT_MAX → st.usedVertex.getD i false = false →
    st.score.getD i 0 < UINT_MAX → i < N → st.score.getD j 0 ≤ st.score.getD i 0 + 1
  prev_link : ∀ j, j < N → st.previousVertex.getD j 0 ≠ UINT_MAX →
    st.previousVertex.getD j 0 < N ∧
    conn.getD (st.previousVertex.getD j 0 + j * N) false = true ∧
    st.score.getD j 0 = st.score.getD (st.previousVertex.getD j 0) 0 + 1 ∧
    st.score.getD j 0 < UINT_MAX
  prev_some : ∀ j, j < N → j ≠ indFirst → st.score.getD j 0 < UINT_MAX →
    st.previousVertex.getD j 0 ≠ UINT_MAX

/-- The link that the reconstruction loop follows from vertex `a` to vertex `b`: both are
vertices and `connections[b + a * N]` is set. -/
def Link (N : Nat) (conn : List Bool) (a b : Nat) : Prop :=
  a < N ∧ b < N ∧ conn.getD (b + a * N) false = true

/-! ## Concrete inputs -/

/-- Scenario B of the unit tests (`words_2.txt`, `dict_2.txt`). -/
def dictB : List Word := ["KOT".toList, "TOT".toList, "TON".toList]

/-- The object after `connect` in scenario B. -/
def resultB : Dict :=
  { words := dictB, wordBegin := "TON".toList, wordEnd := "KOT".toList,
    indFirst := 2, indLast := 0, seq := ["KOT".toList, "TOT".toList, "TON".toList] }

/-- A dictionary in which `AAA` and `CBA` are linked by `AAA, BAA, BBA, CBA`; `BBA` stands
before `AAC` in the list. -/
def dictDropped : List Word :=
  ["BBA".toList, "BAA".toList, "AAA".toList, "AAC".toList, "CBA".toList]

/-- The dictionary `dictDropped` with the detour `AAC, ABC, CBC` to `CBA` added. -/
def dictDetour : List Word :=
  ["BBA".toList, "BAA".toList, "AAA".toList, "AAC".toList, "ABC".toList, "CBC".toList,
    "CBA".toList]

/-- A dictionary of two words that differ in two positions. -/
def dictApart : List Word := ["AA".toList, "BB".toList]

/-! ## `readFiles` and the points of the search -/

/-- The part of `readFiles` after the two words and the dictionary lines have been read
and trimmed: `seq` is the caller's vector, passed by reference, and the result is its
value when `readFiles` returns. -/
def readFiles (wordBegin wordEnd : Word) (candidates : List Word) (seq : List Word) :
    Option (List Word) :=
  if wordBegin.length ≠ wordEnd.length then some seq
  else ((build wordBegin wordEnd candidates).connect).map fun r => r.2.seq

/-- Scenario A of the unit tests (`words_1.txt`, `dict_1.txt`). -/
def dictA : List Word :=
  ["XYZ".toList, "XYX".toList, "ZYX".toList, "ZYY".toList, "ZXY".toList]

/-- A candidate list in which both anchors `A` and `B` occur twice. -/
def dictTwice : List Word := ["A".toList, "B".toList, "A".toList, "B".toList]

/-- The state of the search loop of `Dict::connect` at the start of round `k + 1` when the
loop, started in `st`, runs that far; `none` when it has left at its `break` before. -/
def stateAfter (N indLast : Nat) (connections : List Bool) :
    Nat → SearchState → Option SearchState
  | 0, st => some st
  | k + 1, st =>
    match searchRound N indLast connections st with
    | (_, false) => none
    | (st1, true) => stateAfter N indLast connections k st1

/-- The state inside the round that starts in `st`, when the relaxation loop has finished
with the indices below `m` (or has left at its `break` before): the state after the
selection scan for `m = 0`, the state at the end of the round for `m = N`. -/
def roundPoint (N indLast : Nat) (connections : List Bool) (st : SearchState) (m : Nat) :
    SearchState :=
  match selectLoop st.score (List.range N) (UINT_MAX, st.indVertex, st.usedVertex) with
  | (currentScore, indVertex, usedVertex) =>
    if currentScore = UINT_MAX then
      { st with usedVertex := usedVertex, indVertex := indVertex }
    else
      match relaxLoop N indVertex indLast (currentScore + 1) connections (List.range m)
          (st.score, st.previousVertex) with
      | (score, previousVertex) =>
        { score := score, previousVertex := previousVertex, usedVertex := usedVertex,
          indVertex := indVertex }

/-- The writes `score[j] = currentScore` of one relaxation pass, in order, each as
`(j, value of score[j] before the write, value written)`: the loop `relaxLoop` with a log
in place of the state it returns. -/
def relaxWrites (N indVertex indLast currentScore : Nat) (connections : List Bool) :
    List Nat → List Nat × List Nat → List (Nat × Nat × Nat)
  | [], _ => []
  | j :: rest, (score, previousVertex) =>
    if score.getD j 0 > currentScore ∧ connections.getD (indVertex + j * N) false = true then
      if j = indLast then [(j, score.getD j 0, currentScore)]
      else (j, score.getD j 0, currentScore) ::
        relaxWrites N indVertex indLast currentScore connections rest
          (score.set j currentScore, previousVertex.set j indVertex)
    else relaxWrites N indVertex indLast currentScore connections rest (score, previousVertex)

/-- Following `previousVertex` from any vertex with a finite score leads to the source
`indFirst`: the walk of the reconstruction loop from `j` ends within `N` visited vertices,
visits no vertex twice, and every vertex on it but the source has a predecessor other
than `UINT_MAX`. -/
def LinksReachSource (words : List Word) (indFirst : Nat) (st : SearchState) : Prop :=
  ∀ j, j < words.length → st.score.getD j 0 < UINT_MAX →
    ∃ trace, walkIndices words st.previousVertex indFirst words.length j [] = some trace ∧
      trace.head? = some j ∧ trace.getLast? = some indFirst ∧ trace.Nodup ∧
      trace.length ≤ words.length ∧
      ∀ v ∈ trace, v ≠ indFirst → st.previousVertex.getD v 0 ≠ UINT_MAX

/-- The result `(currentScore, indVertex, usedVertex)` of the selection scan of the round
that starts in `st`. -/
def selectRound (N : Nat) (st : SearchState) : Nat × Nat × List Bool :=
  selectLoop st.score (List.range N) (UINT_MAX, st.indVertex, st.usedVertex)

/-- The writes to `score` in the relaxation pass of the round that starts in `st`. -/
def roundWrites (N indLast : Nat) (connections : List Bool) (st : SearchState) :
    List (Nat × Nat × Nat) :=
  relaxWrites N (selectRound N st).2.1 indLast ((selectRound N st).1 + 1) connections
    (List.range N) (st.score, st.previousVertex)

/-! ## Lemmas -/

theorem diffCount_nil (s2 : Word) : diffCount [] s2 = 0 := by
  simp [diffCount]

theorem diffCount_cons (c1 c2 : Char) (r1 r2 : Word) :
    diffCount (c1 :: r1) (c2 :: r2) = (if c1 ≠ c2 then 1 else 0) + diffCount r1 r2 := by
  unfold diffCount
  rw [List.length_cons, List.range_succ_eq_map, List.countP_cons, List.countP_map]
  have h : ((fun i => decide ((c1 :: r1)[i]? ≠ (c2 :: r2)[i]?)) ∘ Nat.succ)
      = (fun i => decide (r1[i]? ≠ r2[i]?)) := by
    funext i
    simp
  rw [h]
  by_cases hc : c1 = c2 <;> simp [hc, Nat.add_comm]

theorem diffCount_comm (s1 s2 : Word) (h : s1.length = s2.length) :
    diffCount s1 s2 = diffCount s2 s1 := by
  unfold diffCount
  rw [h]
  congr 1
  funext i
  simp [ne_comm]

theorem areNeighboursLoop_eq (s1 : Word) :
    ∀ (s2 : Word) (m : Nat), s1.length = s2.length → m ≤ 1 →
      areNeighboursLoop s1 s2 m = some (decide (m + diffCount s1 s2 = 1)) := by
  induction s1 with
  | nil =>
    intro s2 m _ hm
    have : m = 0 ∨ m = 1 := by omega
    rcases this with rfl | rfl <;> simp [areNeighboursLoop, diffCount_nil]
  | cons c1 r1 ih =>
    intro s2 m hlen hm
    cases s2 with
    | nil => simp at hlen
    | cons c2 r2 =>
      have hlen2 : r1.length = r2.length := by simpa using hlen
      rw [diffCount_cons]
      by_cases hc : c1 = c2
      · simp [areNeighboursLoop, hc, ih r2 m hlen2 hm]
      · have : m = 0 ∨ m = 1 := by omega
        rcases this with rfl | rfl
        · simp [areNeighboursLoop, hc, ih r2 1 hlen2 (le_refl 1), Nat.add_comm]
        · simp [areNeighboursLoop, hc]

theorem areNeighbours_eq (s1 s2 : Word) (h : s1.length = s2.length) :
    areNeighbours s1 s2 = some (decide (diffCount s1 s2 = 1)) := by
  unfold areNeighbours
  rw [areNeighboursLoop_eq s1 s2 0 h (by omega)]
  simp

theorem Dict.new_wf (b e : Word) : (Dict.new b e).WF := by
  constructor <;> simp [Dict.new]

theorem Dict.push_wordBegin (d : Dict) (w : Word) : (d.push w).wordBegin = d.wordBegin := by
  unfold Dict.push
  split_ifs <;> rfl

theorem Dict.push_wordEnd (d : Dict) (w : Word) : (d.push w).wordEnd = d.wordEnd := by
  unfold Dict.push
  split_ifs <;> rfl

theorem Dict.push_seq (d : Dict) (w : Word) : (d.push w).seq = d.seq := by
  unfold Dict.push
  split_ifs <;> rfl

theorem Dict.push_words (d : Dict) (w : Word) :
    (d.push w).words = if w.length = d.wordBegin.length then d.words ++ [w] else d.words := by
  unfold Dict.push
  split_ifs <;> first | rfl | contradiction

theorem Dict.push_indFirst (d : Dict) (w : Word) :
    (d.push w).indFirst =
      if w.length = d.wordBegin.length ∧ w = d.wordBegin then d.words.length else d.indFirst := by
  unfold Dict.push
  split_ifs <;> first | rfl | (exfalso; tauto)

theorem Dict.push_indLast (d : Dict) (w : Word) :
    (d.push w).indLast =
      if w.length = d.wordBegin.length ∧ w = d.wordEnd then d.words.length else d.indLast := by
  unfold Dict.push
  split_ifs <;> first | rfl | (exfalso; tauto)

theorem getElem?_append_singleton_of_some {α : Type} (l : List α) (x a : α) (i : Nat)
    (h : l[i]? = some a) : (l ++ [x])[i]? = some a := by
  have hi : i < l.length := by
    by_contra hc
    rw [List.getElem?_eq_none (by omega)] at h
    cases h
  rw [List.getElem?_append_left hi, h]

theorem Dict.push_wf (d : Dict) (w : Word) (h : d.WF) : (d.push w).WF := by
  by_cases hl : w.length = d.wordBegin.length
  · constructor
    · intro x hx
      rw [Dict.push_words, if_pos hl] at hx
      rw [Dict.push_wordBegin]
      rcases List.mem_append.1 hx with hx | hx
      · exact h.len x hx
      · simp at hx; rw [hx]; exact hl
    · intro hx
      rw [Dict.push_words, if_pos hl, Dict.push_wordBegin] at hx
      rw [Dict.push_indFirst]
      have h1 : d.wordBegin ∉ d.words := fun hc => hx (List.mem_append_left _ hc)
      have h2 : w ≠ d.wordBegin := fun hc => hx (by simp [hc])
      simp [h2, h.first_absent h1]
    · intro hx
      rw [Dict.push_words, if_pos hl, Dict.push_wordBegin] at *
      rw [Dict.push_indFirst]
      by_cases hw : w = d.wordBegin
      · rw [if_pos ⟨hl, hw⟩, hw]; simp
      · have h1 : d.wordBegin ∈ d.words := by
          rcases List.mem_append.1 hx with hx | hx
          · exact hx
          · simp at hx; exact absurd hx.symm hw
        simp only [hw, and_false, if_false]
        exact getElem?_append_singleton_of_some _ _ _ _ (h.first_present h1)
    · intro hx
      rw [Dict.push_words, if_pos hl, Dict.push_wordEnd] at hx
      rw [Dict.push_indLast]
      have h1 : d.wordEnd ∉ d.words := fun hc => hx (List.mem_append_left _ hc)
      have h2 : w ≠ d.wordEnd := fun hc => hx (by simp [hc])
      simp [h2, h.last_absent h1]
    · intro hx
      rw [Dict.push_words, if_pos hl, Dict.push_wordEnd] at *
      rw [Dict.push_indLast]
      by_cases hw : w = d.wordEnd
      · rw [if_pos ⟨hl, hw⟩, hw]; simp
      · have h1 : d.wordEnd ∈ d.words := by
          rcases List.mem_append.1 hx with hx | hx
          · exact hx
          · simp at hx; exact absurd hx.symm hw
        simp only [hw, and_false, if_false]
        exact getElem?_append_singleton_of_some _ _ _ _ (h.last_present h1)
    · intro hx
      rw [Dict.push_wordBegin, Dict.push_wordEnd] at hx
      rw [Dict.push_indFirst, Dict.push_indLast, hx, h.same hx]
    · rw [Dict.push_seq]; exact h.seq_nil
  · have : d.push w = d := by
      unfold Dict.push
      rw [if_pos hl]
    rw [this]; exact h

theorem Dict.pushAll_wf (cands : List Word) : ∀ d : Dict, d.WF → (d.pushAll cands).WF := by
  induction cands with
  | nil => intro d h; exact h
  | cons c cs ih => intro d h; exact ih (d.push c) (Dict.push_wf d c h)

theorem Dict.pushAll_wordBegin (cands : List Word) :
    ∀ d : Dict, (d.pushAll cands).wordBegin = d.wordBegin := by
  induction cands with
  | nil => intro d; rfl
  | cons c cs ih =>
    intro d
    show ((d.push c).pushAll cs).wordBegin = _
    rw [ih, Dict.push_wordBegin]

theorem Dict.pushAll_wordEnd (cands : List Word) :
    ∀ d : Dict, (d.pushAll cands).wordEnd = d.wordEnd := by
  induction cands with
  | nil => intro d; rfl
  | cons c cs ih =>
    intro d
    show ((d.push c).pushAll cs).wordEnd = _
    rw [ih, Dict.push_wordEnd]

theorem build_wf (b e : Word) (cands : List Word) : (build b e cands).WF :=
  Dict.pushAll_wf cands _ (Dict.new_wf b e)

theorem build_wordBegin (b e : Word) (cands : List Word) : (build b e cands).wordBegin = b :=
  Dict.pushAll_wordBegin cands _

theorem build_wordEnd (b e : Word) (cands : List Word) : (build b e cands).wordEnd = e :=
  Dict.pushAll_wordEnd cands _

theorem getD_set_eq {α : Type} (l : List α) (i : Nat) (a d : α) (h : i < l.length) :
    (l.set i a).getD i d = a := by
  simp [List.getD_eq_getElem?_getD, List.getElem?_set, h]

theorem getD_set_ne {α : Type} (l : List α) {i j : Nat} (a d : α) (h : i ≠ j) :
    (l.set i a).getD j d = l.getD j d := by
  simp [List.getD_eq_getElem?_getD, List.getElem?_set, h]

theorem getD_mem {α : Type} (l : List α) (i : Nat) (d : α) (h : i < l.length) :
    l.getD i d ∈ l := by
  rw [List.getD_eq_getElem l d h]
  exact List.getElem_mem h

theorem flat_index_inj {N a b a' b' : Nat} (ha : a < N) (ha' : a' < N)
    (h : a + b * N = a' + b' * N) : a = a' ∧ b = b' := by
  have hN : 0 < N := by omega
  have h1 : (a + b * N) % N = a := by
    rw [Nat.add_mul_mod_self_right, Nat.mod_eq_of_lt ha]
  have h2 : (a' + b' * N) % N = a' := by
    rw [Nat.add_mul_mod_self_right, Nat.mod_eq_of_lt ha']
  have h3 : (a + b * N) / N = b := by
    rw [Nat.add_mul_div_right _ _ hN, Nat.div_eq_of_lt ha, Nat.zero_add]
  have h4 : (a' + b' * N) / N = b' := by
    rw [Nat.add_mul_div_right _ _ hN, Nat.div_eq_of_lt ha', Nat.zero_add]
  rw [h] at h1 h3
  exact ⟨h1.symm.trans h2, h3.symm.trans h4⟩

theorem flat_index_lt {N a b : Nat} (ha : a < N) (hb : b < N) : a + b * N < N * N := by
  have h1 : (b + 1) * N ≤ N * N := Nat.mul_le_mul_right N hb
  have h2 : (b + 1) * N = b * N + N := Nat.succ_mul b N
  omega

theorem nbValue_comm (words : List Word) (L : Nat) (hlen : ∀ w ∈ words, w.length = L)
    {i j : Nat} (hi : i < words.length) (hj : j < words.length) :
    nbValue words i j = nbValue words j i := by
  unfold nbValue
  rw [diffCount_comm]
  rw [hlen _ (getD_mem words i [] hi), hlen _ (getD_mem words j [] hj)]

theorem connectionsRow_aux (words : List Word) (L : Nat) (hlen : ∀ w ∈ words, w.length = L)
    (i : Nat) (hi : i < words.length) (conn0 : List Bool)
    (hc : conn0.length = words.length * words.length) :
    ∀ m, m ≤ i → ∃ conn,
      (List.range m).foldlM
        (fun conn j =>
          (areNeighbours (words.getD i []) (words.getD j [])).map
            (fun v => (conn.set (j + i * words.length) v).set (i + j * words.length) v))
        conn0 = some conn ∧
      conn.length = words.length * words.length ∧
      (∀ j, j < m → conn.getD (j + i * words.length) false = nbValue words i j ∧
        conn.getD (i + j * words.length) false = nbValue words i j) ∧
      (∀ k, (∀ j, j < m → k ≠ j + i * words.length ∧ k ≠ i + j * words.length) →
        conn.getD k false = conn0.getD k false) := by
  intro m
  induction m with
  | zero =>
    intro _
    exact ⟨conn0, by simp, hc, by simp, by simp⟩
  | succ m ih =>
    intro hm
    obtain ⟨conn, h1, h2, h3, h4⟩ := ih (by omega)
    have hmN : m < words.length := by omega
    have hnb : areNeighbours (words.getD i []) (words.getD m []) = some (nbValue words i m) := by
      rw [areNeighbours_eq]
      · rfl
      · rw [hlen _ (getD_mem words i [] hi), hlen _ (getD_mem words m [] hmN)]
    refine ⟨(conn.set (m + i * words.length) (nbValue words i m)).set
        (i + m * words.length) (nbValue words i m), ?_, ?_, ?_, ?_⟩
    · rw [List.range_succ, List.foldlM_append, h1]
      simp only [Option.bind_eq_bind, Option.some_bind, List.foldlM_cons, List.foldlM_nil, hnb,
        Option.map_some', Option.pure_def]
    · simp [h2]
    · intro j hj
      have hjN : j < words.length := by omega
      by_cases hjm : j = m
      · subst hjm
        constructor
        · have hne : i + j * words.length ≠ j + i * words.length := by
            intro he
            have := (flat_index_inj hi hjN he).1
            omega
          rw [getD_set_ne _ _ _ hne, getD_set_eq]
          rw [h2]; exact flat_index_lt hjN hi
        · rw [getD_set_eq]
          rw [List.length_set, h2]; exact flat_index_lt hi hjN
      · have hjlt : j < m := by omega
        have n1 : i + m * words.length ≠ j + i * words.length := by
          intro he
          have := (flat_index_inj hi hjN he).1
          omega
        have n2 : m + i * words.length ≠ j + i * words.length := by
          intro he
          have := (flat_index_inj hmN hjN he).1
          omega
        have n3 : i + m * words.length ≠ i + j * words.length := by
          intro he
          have := (flat_index_inj hi hi he).2
          omega
        have n4 : m + i * words.length ≠ i + j * words.length := by
          intro he
          have := (flat_index_inj hmN hi he).1
          omega
        rw [getD_set_ne _ _ _ n1, getD_set_ne _ _ _ n2, getD_set_ne _ _ _ n3,
          getD_set_ne _ _ _ n4]
        exact h3 j hjlt
    · intro k hk
      have hkm := hk m (by omega)
      rw [getD_set_ne _ _ _ (Ne.symm hkm.2), getD_set_ne _ _ _ (Ne.symm hkm.1)]
      exact h4 k (fun j hj => hk j (by omega))

theorem connectionsRow_spec (words : List Word) (L : Nat) (hlen : ∀ w ∈ words, w.length = L)
    (i : Nat) (hi : i < words.length) (conn0 : List Bool)
    (hc : conn0.length = words.length * words.length) :
    ∃ conn, connectionsRow words i conn0 = some conn ∧
      conn.length = words.length * words.length ∧
      (∀ j, j < i → conn.getD (j + i * words.length) false = nbValue words i j ∧
        conn.getD (i + j * words.length) false = nbValue words i j) ∧
      (∀ k, (∀ j, j < i → k ≠ j + i * words.length ∧ k ≠ i + j * words.length) →
        conn.getD k false = conn0.getD k false) :=
  connectionsRow_aux words L hlen i hi conn0 hc i (le_refl i)

theorem buildConnections_aux (words : List Word) (L : Nat)
    (hlen : ∀ w ∈ words, w.length = L) :
    ∀ k, k ≤ words.length → ∃ conn,
      (List.range k).foldlM
        (fun conn i => connectionsRow words i (conn.set (i * (1 + words.length)) false))
        (List.replicate (words.length * words.length) false) = some conn ∧
      conn.length = words.length * words.length ∧
      ∀ a b, a < words.length → b < words.length →
        conn.getD (a + b * words.length) false
          = (decide (a < k ∧ b < k ∧ a ≠ b) && nbValue words a b) := by
  intro k
  induction k with
  | zero =>
    intro _
    refine ⟨List.replicate (words.length * words.length) false, by simp, by simp, ?_⟩
    intro a b ha hb
    have hlt := flat_index_lt ha hb
    simp [List.getD_eq_getElem?_getD, List.getElem?_replicate, hlt]
  | succ k ih =>
    intro hk
    have hkN : k < words.length := by omega
    obtain ⟨conn, h1, h2, h3⟩ := ih (by omega)
    obtain ⟨conn', g1, g2, g3, g4⟩ := connectionsRow_spec words L hlen k hkN
      (conn.set (k * (1 + words.length)) false) (by rw [List.length_set, h2])
    refine ⟨conn', ?_, g2, ?_⟩
    · rw [List.range_succ, List.foldlM_append, h1]
      simp only [Option.bind_eq_bind, Option.some_bind, List.foldlM_cons, List.foldlM_nil, g1,
        Option.pure_def]
    · intro a b ha hb
      have hdiag : k * (1 + words.length) = k + k * words.length := by
        rw [Nat.mul_add, Nat.mul_one]
      by_cases c1 : b = k ∧ a < k
      · obtain ⟨rfl, hak⟩ := c1
        rw [(g3 a hak).1, nbValue_comm words L hlen hb ha]
        have : (a < b + 1 ∧ b < b + 1 ∧ a ≠ b) := ⟨by omega, by omega, by omega⟩
        simp [this]
      by_cases c2 : a = k ∧ b < k
      · obtain ⟨rfl, hbk⟩ := c2
        rw [(g3 b hbk).2]
        have : (a < a + 1 ∧ b < a + 1 ∧ a ≠ b) := ⟨by omega, by omega, by omega⟩
        simp [this]
      have hother : ∀ j, j < k → a + b * words.length ≠ j + k * words.length ∧
          a + b * words.length ≠ k + j * words.length := by
        intro j hj
        constructor
        · intro he
          have := flat_index_inj ha (by omega) he
          exact c1 ⟨this.2, by omega⟩
        · intro he
          have := flat_index_inj ha hkN he
          exact c2 ⟨this.1, by omega⟩
      rw [g4 _ hother]
      by_cases c3 : a = k ∧ b = k
      · obtain ⟨rfl, rfl⟩ := c3
        rw [hdiag, getD_set_eq _ _ _ _ (by rw [h2]; exact flat_index_lt ha ha)]
        simp
      · have hne : k * (1 + words.length) ≠ a + b * words.length := by
          rw [hdiag]
          intro he
          have := flat_index_inj hkN ha he
          exact c3 ⟨this.1.symm, this.2.symm⟩
        rw [getD_set_ne _ _ _ hne, h3 a b ha hb]
        have : (a < k ∧ b < k ∧ a ≠ b) ↔ (a < k + 1 ∧ b < k + 1 ∧ a ≠ b) := by
          constructor
          · rintro ⟨x, y, z⟩; exact ⟨by omega, by omega, z⟩
          · rintro ⟨x, y, z⟩
            refine ⟨?_, ?_, z⟩
            · by_contra hc
              have hak : a = k := by omega
              by_cases hbk : b < k
              · exact c2 ⟨hak, hbk⟩
              · exact c3 ⟨hak, by omega⟩
            · by_contra hc
              have hbk : b = k := by omega
              by_cases hak : a < k
              · exact c1 ⟨hbk, hak⟩
              · exact c3 ⟨by omega, hbk⟩
        simp only [this]

theorem buildConnections_spec (words : List Word) (L : Nat)
    (hlen : ∀ w ∈ words, w.length = L) :
    ∃ conn, buildConnections words = some conn ∧
      conn.length = words.length * words.length ∧
      ∀ a b, a < words.length → b < words.length →
        conn.getD (a + b * words.length) false = (decide (a ≠ b) && nbValue words a b) := by
  obtain ⟨conn, h1, h2, h3⟩ := buildConnections_aux words L hlen words.length (le_refl _)
  refine ⟨conn, h1, h2, ?_⟩
  intro a b ha hb
  rw [h3 a b ha hb]
  simp [ha, hb]

theorem count_false_set_lt (l : List Bool) :
    ∀ i, i < l.length → l.getD i false = false → (l.set i true).count false < l.count false := by
  induction l with
  | nil => intro i h; simp at h
  | cons x xs ih =>
    intro i hi hf
    cases i with
    | zero =>
      simp at hf
      subst hf
      simp
    | succ i =>
      have hi2 : i < xs.length := by simpa using hi
      have hf2 : xs.getD i false = false := by simpa using hf
      have := ih i hi2 hf2
      cases x <;> simp [List.count_cons] <;> omega

theorem selectLoop_spec (score : List Nat) (is : List Nat) :
    ∀ (cs0 iv0 : Nat) (used0 : List Bool), (∀ i ∈ is, i < used0.length) →
      SelectSpec score is cs0 iv0 used0 (selectLoop score is (cs0, iv0, used0)) := by
  induction is with
  | nil =>
    intro cs0 iv0 used0 _
    simp only [selectLoop]
    constructor <;> simp
  | cons i rest ih =>
    intro cs0 iv0 used0 hb
    have hi : i < used0.length := hb i (List.mem_cons_self _ _)
    have hrest : ∀ k ∈ rest, k < used0.length := fun k hk => hb k (List.mem_cons_of_mem _ hk)
    by_cases hskip : used0.getD i false = true ∨ score.getD i 0 ≥ cs0
    · have hs := ih cs0 iv0 used0 hrest
      have heq : selectLoop score (i :: rest) (cs0, iv0, used0)
          = selectLoop score rest (cs0, iv0, used0) := by
        simp only [selectLoop]
        rw [if_pos hskip]
      rw [heq]
      refine ⟨hs.len, hs.mono, ?_, hs.le, hs.same, ?_, ?_, hs.count_le, hs.count_lt⟩
      · intro k hk
        rcases hs.marked k hk with h | h
        · exact Or.inl h
        · exact Or.inr ⟨List.mem_cons_of_mem _ h.1, h.2⟩
      · intro hlt
        have := hs.sel hlt
        exact ⟨List.mem_cons_of_mem _ this.1, this.2⟩
      · intro k hk hku
        rcases List.mem_cons.1 hk with rfl | hk
        · rcases hskip with h | h
          · rw [h] at hku; cases hku
          · exact le_trans hs.le h
        · exact hs.min k hk hku
    · have hu : used0.getD i false = false := by
        cases hx : used0.getD i false
        · rfl
        · exact absurd (Or.inl hx) hskip
      have hsc : score.getD i 0 < cs0 := by
        by_contra hc
        exact hskip (Or.inr (by omega))
      have hs := ih (score.getD i 0) i (used0.set i true)
        (fun k hk => by rw [List.length_set]; exact hrest k hk)
      have heq : selectLoop score (i :: rest) (cs0, iv0, used0)
          = selectLoop score rest (score.getD i 0, i, used0.set i true) := by
        simp only [selectLoop]
        rw [if_neg hskip]
      rw [heq]
      have hcnt := count_false_set_lt used0 i hi hu
      refine ⟨?_, ?_, ?_, ?_, ?_, ?_, ?_, ?_, ?_⟩
      · rw [hs.len, List.length_set]
      · intro k hk
        apply hs.mono
        by_cases hki : i = k
        · subst hki; exact getD_set_eq _ _ _ _ hi
        · rw [getD_set_ne _ _ _ hki]; exact hk
      · intro k hk
        rcases hs.marked k hk with h | h
        · by_cases hki : i = k
          · subst hki
            exact Or.inr ⟨List.mem_cons_self _ _, hsc⟩
          · rw [getD_set_ne _ _ _ hki] at h
            exact Or.inl h
        · exact Or.inr ⟨List.mem_cons_of_mem _ h.1, lt_trans h.2 hsc⟩
      · exact le_of_lt (lt_of_le_of_lt hs.le hsc)
      · intro he
        have := hs.le
        omega
      · intro _
        by_cases hlt : (selectLoop score rest (score.getD i 0, i, used0.set i true)).1
            < score.getD i 0
        · have h := hs.sel hlt
          refine ⟨List.mem_cons_of_mem _ h.1, ?_, h.2.2.1, h.2.2.2⟩
          by_cases hki : i = (selectLoop score rest (score.getD i 0, i, used0.set i true)).2.1
          · have h2 := h.2.1
            rw [← hki, getD_set_eq _ _ _ _ hi] at h2
            cases h2
          · have h2 := h.2.1
            rw [getD_set_ne _ _ _ hki] at h2
            exact h2
        · have he : (selectLoop score rest (score.getD i 0, i, used0.set i true)).1
              = score.getD i 0 := le_antisymm hs.le (by omega)
          have h := hs.same he
          rw [h.2, h.1, he]
          exact ⟨List.mem_cons_self _ _, hu, rfl, getD_set_eq _ _ _ _ hi⟩
      · intro k hk hku
        by_cases hki : i = k
        · subst hki; exact hs.le
        · rcases List.mem_cons.1 hk with rfl | hk
          · exact absurd rfl hki
          · apply hs.min k hk
            rw [getD_set_ne _ _ _ hki]; exact hku
      · exact le_of_lt (lt_of_le_of_lt hs.count_le hcnt)
      · intro _
        exact lt_of_le_of_lt hs.count_le hcnt

theorem lt_length_of_getD_pos (l : List Nat) (j c : Nat) (h : c < l.getD j 0) :
    j < l.length := by
  by_contra hc
  rw [List.getD_eq_default _ _ (by omega)] at h
  omega

theorem relaxLoop_spec (N iv indLast c : Nat) (conn : List Bool) (js : List Nat) :
    ∀ (score0 prev0 : List Nat), score0.length = prev0.length →
      RelaxSpec N iv c conn score0 prev0
        (relaxLoop N iv indLast c conn js (score0, prev0)) := by
  induction js with
  | nil =>
    intro score0 prev0 _
    simp only [relaxLoop]
    exact ⟨rfl, rfl, fun j => Or.inl ⟨rfl, rfl⟩⟩
  | cons j rest ih =>
    intro score0 prev0 hl
    by_cases hcond : score0.getD j 0 > c ∧ conn.getD (iv + j * N) false = true
    · have hj : j < score0.length := lt_length_of_getD_pos _ _ _ hcond.1
      have hj2 : j < prev0.length := by omega
      have hcell : ∀ k, ((score0.set j c).getD k 0 = score0.getD k 0 ∧
            (prev0.set j iv).getD k 0 = prev0.getD k 0) ∨
          (c < score0.getD k 0 ∧ conn.getD (iv + k * N) false = true ∧
            (score0.set j c).getD k 0 = c ∧ (prev0.set j iv).getD k 0 = iv) := by
        intro k
        by_cases hk : j = k
        · subst hk
          exact Or.inr ⟨hcond.1, hcond.2, getD_set_eq _ _ _ _ hj, getD_set_eq _ _ _ _ hj2⟩
        · exact Or.inl ⟨getD_set_ne _ _ _ hk, getD_set_ne _ _ _ hk⟩
      by_cases hlast : j = indLast
      · have heq : relaxLoop N iv indLast c conn (j :: rest) (score0, prev0)
            = (score0.set j c, prev0.set j iv) := by
          simp only [relaxLoop]
          rw [if_pos hcond, if_pos hlast]
        rw [heq]
        exact ⟨List.length_set _ _ _, List.length_set _ _ _, hcell⟩
      · have heq : relaxLoop N iv indLast c conn (j :: rest) (score0, prev0)
            = relaxLoop N iv indLast c conn rest (score0.set j c, prev0.set j iv) := by
          simp only [relaxLoop]
          rw [if_pos hcond, if_neg hlast]
        rw [heq]
        have hs := ih (score0.set j c) (prev0.set j iv)
          (by rw [List.length_set, List.length_set]; exact hl)
        refine ⟨?_, ?_, ?_⟩
        · rw [hs.score_len, List.length_set]
        · rw [hs.prev_len, List.length_set]
        · intro k
          rcases hs.cell k with ⟨h1, h2⟩ | ⟨h1, h2, h3, h4⟩
          · rcases hcell k with ⟨g1, g2⟩ | ⟨g1, g2, g3, g4⟩
            · exact Or.inl ⟨h1.trans g1, h2.trans g2⟩
            · exact Or.inr ⟨g1, g2, h1.trans g3, h2.trans g4⟩
          · by_cases hk : j = k
            · subst hk
              rw [getD_set_eq _ _ _ _ hj] at h1
              omega
            · rw [getD_set_ne _ _ _ hk] at h1
              exact Or.inr ⟨h1, h2, h3, h4⟩
    · have heq : relaxLoop N iv indLast c conn (j :: rest) (score0, prev0)
          = relaxLoop N iv indLast c conn rest (score0, prev0) := by
        simp only [relaxLoop]
        rw [if_neg hcond]
      rw [heq]
      exact ih score0 prev0 hl

theorem getD_replicate {α : Type} (n j : Nat) (a d : α) :
    (List.replicate n a).getD j d = if j < n then a else d := by
  by_cases h : j < n
  · simp [List.getD_eq_getElem?_getD, List.getElem?_replicate, h]
  · simp [List.getD_eq_getElem?_getD, List.getElem?_replicate, h]

theorem UINT_MAX_pos : 0 < UINT_MAX := by
  unfold UINT_MAX
  omega

theorem initState_score (d : Dict) (hF : d.indFirst < d.words.length) (j : Nat) :
    (initState d).score.getD j 0
      = if j = d.indFirst then 0 else if j < d.words.length then UINT_MAX else 0 := by
  unfold initState
  by_cases h : j = d.indFirst
  · subst h
    simp only [if_true]
    rw [getD_set_eq]
    simpa using hF
  · rw [if_neg h, getD_set_ne _ _ _ (Ne.symm h), getD_replicate]

theorem initState_inv (d : Dict) (conn : List Bool) (hF : d.indFirst < d.words.length) :
    SearchInv d.words.length d.indFirst conn (initState d) := by
  have hpos := UINT_MAX_pos
  constructor
  · simp [initState]
  · simp [initState]
  · simp [initState]
  · rw [initState_score d hF]; simp
  · simp only [initState]; rw [getD_replicate, if_pos hF]
  · intro j
    rw [initState_score d hF]
    split_ifs <;> omega
  · intro j hj
    simp only [initState] at hj
    rw [getD_replicate] at hj
    split_ifs at hj
  · intro j i hj _ hi hiN
    rw [initState_score d hF] at hj hi ⊢
    rw [initState_score d hF]
    split_ifs at hj hi ⊢ <;> omega
  · intro j hj hp
    simp only [initState] at hp
    rw [getD_replicate, if_pos hj] at hp
    exact absurd rfl hp
  · intro j hj hne hs
    rw [initState_score d hF, if_neg hne, if_pos hj] at hs
    omega

theorem searchRound_eq (N indLast : Nat) (conn : List Bool) (st : SearchState) :
    searchRound N indLast conn st =
      if (selectLoop st.score (List.range N) (UINT_MAX, st.indVertex, st.usedVertex)).1
          = UINT_MAX then
        ({ st with
            usedVertex := (selectLoop st.score (List.range N)
              (UINT_MAX, st.indVertex, st.usedVertex)).2.2,
            indVertex := (selectLoop st.score (List.range N)
              (UINT_MAX, st.indVertex, st.usedVertex)).2.1 }, false)
      else
        ({ score := (relaxLoop N
              (selectLoop st.score (List.range N) (UINT_MAX, st.indVertex, st.usedVertex)).2.1
              indLast
              ((selectLoop st.score (List.range N) (UINT_MAX, st.indVertex, st.usedVertex)).1 + 1)
              conn (List.range N) (st.score, st.previousVertex)).1,
           previousVertex := (relaxLoop N
              (selectLoop st.score (List.range N) (UINT_MAX, st.indVertex, st.usedVertex)).2.1
              indLast
              ((selectLoop st.score (List.range N) (UINT_MAX, st.indVertex, st.usedVertex)).1 + 1)
              conn (List.range N) (st.score, st.previousVertex)).2,
           usedVertex := (selectLoop st.score (List.range N)
              (UINT_MAX, st.indVertex, st.usedVertex)).2.2,
           indVertex := (selectLoop st.score (List.range N)
              (UINT_MAX, st.indVertex, st.usedVertex)).2.1 }, true) := by
  rfl

theorem searchInv_relax (N indFirst : Nat) (conn : List Bool) (st : SearchState)
    (hN : N ≤ UINT_MAX) (h : SearchInv N indFirst conn st) (cs iv : Nat) (used : List Bool)
    (hs : SelectSpec st.score (List.range N) UINT_MAX st.indVertex st.usedVertex
      (cs, iv, used))
    (hbrk : ¬ cs = UINT_MAX) (score2 prev2 : List Nat)
    (hr : RelaxSpec N iv (cs + 1) conn st.score st.previousVertex (score2, prev2)) :
    SearchInv N indFirst conn
      { score := score2, previousVertex := prev2, usedVertex := used, indVertex := iv } := by
  have hle := hs.le
  simp only at hle
  have hlt : cs < UINT_MAX := lt_of_le_of_ne hle hbrk
  have hsel := hs.sel hlt
  simp only at hsel
  obtain ⟨hivmem, hivu, hivs, hivu2⟩ := hsel
  have hivN : iv < N := List.mem_range.1 hivmem
  have hbound : ∀ j, st.score.getD j 0 < UINT_MAX → st.score.getD j 0 ≤ cs + 1 := by
    intro j hj
    have := h.layered j iv hj hivu (by rw [hivs]; exact hlt) hivN
    rw [hivs] at this
    exact this
  have hcell := hr.cell
  simp only at hcell
  have hmono : ∀ i, used.getD i false = false → st.usedVertex.getD i false = false := by
    intro i hi
    cases hx : st.usedVertex.getD i false
    · rfl
    · have := hs.mono i hx
      simp only at this
      rw [this] at hi
      cases hi
  refine ⟨?_, ?_, ?_, ?_, ?_, ?_, ?_, ?_, ?_, ?_⟩
  · have := hr.score_len
    simp only at this
    rw [this, h.score_len]
  · have := hr.prev_len
    simp only at this
    rw [this, h.prev_len]
  · have := hs.len
    simp only at this
    rw [this, h.used_len]
  · rcases hcell indFirst with ⟨h1, _⟩ | ⟨h1, _⟩
    · rw [h1]; exact h.source
    · rw [h.source] at h1; omega
  · rcases hcell indFirst with ⟨_, h2⟩ | ⟨h1, _⟩
    · rw [h2]; exact h.source_prev
    · rw [h.source] at h1; omega
  · intro j
    rcases hcell j with ⟨h1, _⟩ | ⟨_, _, h3, _⟩
    · rw [h1]; exact h.score_le j
    · rw [h3]; omega
  · intro j hj
    have hfin : st.score.getD j 0 < UINT_MAX := by
      have := hs.marked j hj
      simp only at this
      rcases this with hu | ⟨_, hu⟩
      · exact h.used_finite j hu
      · exact hu
    rcases hcell j with ⟨h1, _⟩ | ⟨h1, _, h3, _⟩
    · rw [h1]; exact hfin
    · rw [h3]; omega
  · intro j i hj hiu hi hiN
    have hiu0 := hmono i hiu
    rcases hcell j with ⟨j1, _⟩ | ⟨j1, _, j3, _⟩ <;>
      rcases hcell i with ⟨i1, _⟩ | ⟨i1, _, i3, _⟩
    · rw [j1, i1]
      rw [j1] at hj
      rw [i1] at hi
      exact h.layered j i hj hiu0 hi hiN
    · rw [j1, i3]
      rw [j1] at hj
      have := hbound j hj
      omega
    · rw [j3, i1]
      rw [i1] at hi
      have := hs.min i (List.mem_range.2 hiN) hiu0
      simp only at this
      omega
    · rw [j3, i3]; omega
  · intro j hjN hp
    rcases hcell j with ⟨j1, j2⟩ | ⟨j1, jc, j3, j4⟩
    · rw [j2] at hp
      obtain ⟨p1, p2, p3, p4⟩ := h.prev_link j hjN hp
      rw [j1, j2]
      refine ⟨p1, p2, ?_, p4⟩
      rcases hcell (st.previousVertex.getD j 0) with ⟨q1, _⟩ | ⟨q1, _⟩
      · rw [q1]; exact p3
      · have := hbound (st.previousVertex.getD j 0) (by omega)
        omega
    · rw [j3, j4]
      have hj := h.score_le j
      refine ⟨hivN, jc, ?_, by omega⟩
      rcases hcell iv with ⟨q1, _⟩ | ⟨q1, _⟩
      · rw [q1, hivs]
      · rw [hivs] at q1; omega
  · intro j hjN hne hj
    rcases hcell j with ⟨j1, j2⟩ | ⟨_, _, _, j4⟩
    · rw [j2]
      rw [j1] at hj
      exact h.prev_some j hjN hne hj
    · rw [j4]; omega

theorem searchRound_inv (N indFirst indLast : Nat) (conn : List Bool) (st : SearchState)
    (hN : N ≤ UINT_MAX) (h : SearchInv N indFirst conn st) :
    SearchInv N indFirst conn (searchRound N indLast conn st).1 ∧
      ((searchRound N indLast conn st).2 = true →
        (searchRound N indLast conn st).1.usedVertex.count false
          < st.usedVertex.count false) := by
  have hs := selectLoop_spec st.score (List.range N) UINT_MAX st.indVertex st.usedVertex
    (fun i hi => by rw [h.used_len]; exact List.mem_range.1 hi)
  rw [searchRound_eq]
  generalize selectLoop st.score (List.range N) (UINT_MAX, st.indVertex, st.usedVertex) = r
    at hs
  obtain ⟨cs, iv, used⟩ := r
  simp only at hs ⊢
  by_cases hbrk : cs = UINT_MAX
  · rw [if_pos hbrk]
    have hsame := hs.same hbrk
    simp only at hsame
    refine ⟨?_, by simp⟩
    simp only [hsame.1]
    exact ⟨h.score_len, h.prev_len, h.used_len, h.source, h.source_prev, h.score_le,
      h.used_finite, h.layered, h.prev_link, h.prev_some⟩
  · rw [if_neg hbrk]
    have hlt : cs < UINT_MAX := lt_of_le_of_ne hs.le hbrk
    have hr := relaxLoop_spec N iv indLast (cs + 1) conn (List.range N) st.score
      st.previousVertex (by rw [h.score_len, h.prev_len])
    exact ⟨searchInv_relax N indFirst conn st hN h cs iv used hs hbrk _ _ hr,
      fun _ => by simpa using hs.count_lt hlt⟩

theorem searchLoop_spec (N indFirst indLast : Nat) (conn : List Bool) (hN : N ≤ UINT_MAX) :
    ∀ (fuel : Nat) (st : SearchState), SearchInv N indFirst conn st →
      st.usedVertex.count false < fuel →
      ∃ st1, searchLoop N indLast conn fuel st = some st1 ∧ SearchInv N indFirst conn st1 := by
  intro fuel
  induction fuel with
  | zero => intro st _ h; omega
  | succ fuel ih =>
    intro st hinv hcount
    have hr := searchRound_inv N indFirst indLast conn st hN hinv
    simp only [searchLoop]
    generalize searchRound N indLast conn st = rd at hr
    obtain ⟨st1, b⟩ := rd
    cases b with
    | false => exact ⟨st1, rfl, hr.1⟩
    | true =>
      simp only at hr ⊢
      exact ih st1 hr.1 (by have := hr.2 trivial; omega)

theorem walk_spec (words : List Word) (indFirst : Nat) (conn : List Bool) (st : SearchState)
    (h : SearchInv words.length indFirst conn st) :
    ∀ (s fuel ind : Nat) (seq : List Word) (visited : List Nat),
      ind < words.length → st.score.getD ind 0 = s → s < UINT_MAX → s < fuel →
      ∃ trace,
        walkIndices words st.previousVertex indFirst fuel ind visited
          = some (visited ++ trace) ∧
        walkLoop words st.previousVertex indFirst fuel ind seq
          = some (seq ++ trace.map (fun k => words.getD k [])) ∧
        trace.head? = some ind ∧ trace.getLast? = some indFirst ∧
        (∀ k ∈ trace, k < words.length ∧ st.score.getD k 0 ≤ s) ∧
        List.Chain' (Link words.length conn) trace ∧
        trace.Pairwise (fun a b => st.score.getD b 0 < st.score.getD a 0) ∧
        trace.length = s + 1 := by
  intro s
  induction s with
  | zero =>
    intro fuel ind seq visited hind hs _ hfuel
    obtain ⟨f, rfl⟩ : ∃ f, fuel = f + 1 := ⟨fuel - 1, by omega⟩
    have hw : words[ind]? = some (words.getD ind []) := by
      rw [List.getD_eq_getElem _ _ hind, List.getElem?_eq_getElem hind]
    have hif : ind = indFirst := by
      by_contra hne
      have hp := h.prev_some ind hind hne (by rw [hs]; exact UINT_MAX_pos)
      have := (h.prev_link ind hind hp).2.2.1
      omega
    refine ⟨[ind], ?_, ?_, rfl, by simp [hif], ?_, by simp, by simp, rfl⟩
    · simp only [walkIndices, hw]
      rw [if_pos hif]
    · simp only [walkLoop, hw]
      rw [if_pos hif]
      simp
    · intro k hk
      simp at hk
      subst hk
      exact ⟨hind, by omega⟩
  | succ s ih =>
    intro fuel ind seq visited hind hs hfin hfuel
    obtain ⟨f, rfl⟩ : ∃ f, fuel = f + 1 := ⟨fuel - 1, by omega⟩
    have hw : words[ind]? = some (words.getD ind []) := by
      rw [List.getD_eq_getElem _ _ hind, List.getElem?_eq_getElem hind]
    have hne : ind ≠ indFirst := by
      intro he
      rw [he, h.source] at hs
      omega
    have hp := h.prev_some ind hind hne (by rw [hs]; exact hfin)
    obtain ⟨p1, p2, p3, _⟩ := h.prev_link ind hind hp
    obtain ⟨trace, t1, t2, t3, t4, t5, t6, t7, t8⟩ :=
      ih f (st.previousVertex.getD ind 0) (seq ++ [words.getD ind []]) (visited ++ [ind])
        p1 (by omega) (by omega) (by omega)
    refine ⟨ind :: trace, ?_, ?_, rfl, ?_, ?_, ?_, ?_, by simp [t8]⟩
    · simp only [walkIndices, hw]
      rw [if_neg hne, t1]
      simp
    · simp only [walkLoop, hw]
      rw [if_neg hne, t2]
      simp
    · cases trace with
      | nil => simp at t3
      | cons x xs => rw [List.getLast?_cons_cons]; exact t4
    · intro k hk
      rcases List.mem_cons.1 hk with rfl | hk
      · exact ⟨hind, by omega⟩
      · exact ⟨(t5 k hk).1, by have := (t5 k hk).2; omega⟩
    · cases trace with
      | nil => simp at t3
      | cons x xs =>
        simp only [List.head?_cons, Option.some.injEq] at t3
        subst t3
        exact List.Chain'.cons ⟨hind, p1, p2⟩ t6
    · rw [List.pairwise_cons]
      refine ⟨?_, t7⟩
      intro k hk
      have := (t5 k hk).2
      omega

theorem length_le_of_nodup_lt (l : List Nat) (N : Nat) (hnd : l.Nodup) (hlt : ∀ k ∈ l, k < N) :
    l.length ≤ N := by
  have hsub : l ⊆ List.range N := fun k hk => List.mem_range.2 (hlt k hk)
  have := (List.Nodup.subperm hnd hsub).length_le
  simpa using this

theorem connect_spec (d : Dict) (hwf : d.WF) (hF : d.indFirst < d.words.length)
    (hL : d.indLast < d.words.length) (hN : d.words.length ≤ UINT_MAX) :
    ∃ conn st, buildConnections d.words = some conn ∧
      (∀ a b, a < d.words.length → b < d.words.length →
        conn.getD (a + b * d.words.length) false = (decide (a ≠ b) && nbValue d.words a b)) ∧
      search d = some st ∧ SearchInv d.words.length d.indFirst conn st ∧
      ((st.previousVertex.getD d.indLast 0 = UINT_MAX ∧ d.connect = some (3, d)) ∨
       (st.previousVertex.getD d.indLast 0 ≠ UINT_MAX ∧ ∃ trace,
          walkIndices d.words st.previousVertex d.indFirst d.words.length d.indLast []
            = some trace ∧
          d.connect = some (0, { d with seq := trace.map (fun k => d.words.getD k []) }) ∧
          trace.head? = some d.indLast ∧ trace.getLast? = some d.indFirst ∧
          (∀ k ∈ trace, k < d.words.length) ∧
          List.Chain' (Link d.words.length conn) trace ∧
          trace.Nodup ∧ trace.length ≤ d.words.length)) := by
  obtain ⟨conn, c1, _, c3⟩ := buildConnections_spec d.words d.wordBegin.length hwf.len
  have hinit := initState_inv d conn hF
  obtain ⟨st, s1, s2⟩ := searchLoop_spec d.words.length d.indFirst d.indLast conn hN
    (d.words.length + 1) (initState d) hinit (by simp [initState])
  have hsearch : search d = some st := by
    unfold search
    rw [c1]
    exact s1
  have hF2 : ¬ (d.indFirst = UINT_MAX ∨ d.indLast = UINT_MAX) := by omega
  have hN2 : ¬ (UINT_MAX < d.words.length) := by omega
  refine ⟨conn, st, c1, c3, hsearch, s2, ?_⟩
  by_cases hp : st.previousVertex.getD d.indLast 0 = UINT_MAX
  · left
    refine ⟨hp, ?_⟩
    unfold Dict.connect
    rw [if_neg hF2, if_neg hN2, hsearch]
    simp only [Option.some_bind, Option.bind_eq_bind]
    rw [if_pos hp]
  · right
    refine ⟨hp, ?_⟩
    have hfin := (s2.prev_link d.indLast hL hp).2.2.2
    have hnd : ∀ trace : List Nat,
        trace.Pairwise (fun a b => st.score.getD b 0 < st.score.getD a 0) → trace.Nodup := by
      intro trace ht
      exact List.Pairwise.imp (fun hab he => by rw [he] at hab; omega) ht
    obtain ⟨t0, _, _, _, _, a5, _, a7, a8⟩ := walk_spec d.words d.indFirst conn st s2
      (st.score.getD d.indLast 0) (st.score.getD d.indLast 0 + 1) d.indLast [] [] hL rfl hfin
      (by omega)
    have hlen0 := length_le_of_nodup_lt t0 d.words.length (hnd t0 a7) (fun k hk => (a5 k hk).1)
    obtain ⟨trace, t1, t2, t3, t4, t5, t6, t7, t8⟩ := walk_spec d.words d.indFirst conn st s2
      (st.score.getD d.indLast 0) d.words.length d.indLast d.seq [] hL rfl hfin (by omega)
    refine ⟨trace, by simpa using t1, ?_, t3, t4, fun k hk => (t5 k hk).1, t6, hnd trace t7,
      by omega⟩
    unfold Dict.connect
    rw [if_neg hF2, if_neg hN2, hsearch]
    simp only [Option.some_bind, Option.bind_eq_bind]
    rw [if_neg hp, t2, hwf.seq_nil]
    simp

theorem connect_zero_inv (d : Dict) (hwf : d.WF) (d1 : Dict) (h : d.connect = some (0, d1)) :
    d.indFirst < d.words.length ∧ d.indLast < d.words.length ∧ d.words.length ≤ UINT_MAX := by
  unfold Dict.connect at h
  by_cases h1 : d.indFirst = UINT_MAX ∨ d.indLast = UINT_MAX
  · rw [if_pos h1] at h
    simp at h
  · rw [if_neg h1] at h
    by_cases h2 : UINT_MAX < d.words.length
    · rw [if_pos h2] at h
      cases h
    · have hb : d.wordBegin ∈ d.words := by
        by_contra hc
        exact h1 (Or.inl (hwf.first_absent hc))
      have he : d.wordEnd ∈ d.words := by
        by_contra hc
        exact h1 (Or.inr (hwf.last_absent hc))
      have hb2 := hwf.first_present hb
      have he2 := hwf.last_present he
      refine ⟨?_, ?_, by omega⟩
      · by_contra hc
        rw [List.getElem?_eq_none (by omega)] at hb2
        cases hb2
      · by_contra hc
        rw [List.getElem?_eq_none (by omega)] at he2
        cases he2

theorem getD_of_getElem? {α : Type} (l : List α) (i : Nat) (a d : α) (h : l[i]? = some a) :
    l.getD i d = a := by
  rw [List.getD_eq_getElem?_getD, h]
  rfl

theorem lt_length_of_getElem? {α : Type} (l : List α) (i : Nat) (a : α) (h : l[i]? = some a) :
    i < l.length := by
  by_contra hc
  rw [List.getElem?_eq_none (by omega)] at h
  cases h

theorem adjacent_of_link (d : Dict) (hwf : d.WF) (conn : List Bool)
    (hconn : ∀ a b, a < d.words.length → b < d.words.length →
      conn.getD (a + b * d.words.length) false = (decide (a ≠ b) && nbValue d.words a b))
    (a b : Nat) (h : Link d.words.length conn a b) :
    Adjacent (d.words.getD a []) (d.words.getD b []) := by
  obtain ⟨ha, hb, hc⟩ := h
  rw [hconn b a hb ha] at hc
  simp only [Bool.and_eq_true, decide_eq_true_eq] at hc
  have hl : (d.words.getD a []).length = (d.words.getD b []).length := by
    rw [hwf.len _ (getD_mem _ _ _ ha), hwf.len _ (getD_mem _ _ _ hb)]
  refine ⟨hl, ?_⟩
  rw [diffCount_comm _ _ hl]
  have := hc.2
  unfold nbValue at this
  simpa using this

theorem ladder_of_trace (d : Dict) (hwf : d.WF) (conn : List Bool)
    (hconn : ∀ a b, a < d.words.length → b < d.words.length →
      conn.getD (a + b * d.words.length) false = (decide (a ≠ b) && nbValue d.words a b))
    (hF : d.words[d.indFirst]? = some d.wordBegin) (hL : d.words[d.indLast]? = some d.wordEnd)
    (trace : List Nat) (t3 : trace.head? = some d.indLast)
    (t4 : trace.getLast? = some d.indFirst) (t5 : ∀ k ∈ trace, k < d.words.length)
    (t6 : List.Chain' (Link d.words.length conn) trace) :
    IsLadder d.words d.wordEnd d.wordBegin (trace.map (fun k => d.words.getD k [])) := by
  refine ⟨?_, ?_, ?_, ?_⟩
  · rw [List.head?_map, t3]
    simp only [Option.map_some']
    rw [getD_of_getElem? _ _ _ _ hL]
  · rw [List.getLast?_map, t4]
    simp only [Option.map_some']
    rw [getD_of_getElem? _ _ _ _ hF]
  · intro w hw
    obtain ⟨k, hk, rfl⟩ := List.mem_map.1 hw
    exact getD_mem _ _ _ (t5 k hk)
  · rw [List.chain'_map]
    exact List.Chain'.imp (fun a b hab => adjacent_of_link d hwf conn hconn a b hab) t6

theorem adjacent_symm (x y : Word) (h : Adjacent x y) : Adjacent y x :=
  ⟨h.1.symm, by rw [diffCount_comm _ _ h.1.symm]; exact h.2⟩

theorem ladder_reverse (words : List Word) (first last : Word) (l : List Word)
    (h : IsLadder words first last l) : IsLadder words last first l.reverse := by
  obtain ⟨h1, h2, h3, h4⟩ := h
  refine ⟨?_, ?_, ?_, ?_⟩
  · rw [List.head?_reverse, h2]
  · rw [List.getLast?_reverse, h1]
  · intro w hw
    exact h3 w (List.mem_reverse.1 hw)
  · rw [List.chain'_reverse]
    exact List.Chain'.imp (fun a b hab => adjacent_symm a b hab) h4

theorem Dict.pushAll_words (cands : List Word) :
    ∀ d : Dict, (d.pushAll cands).words
      = d.words ++ cands.filter (fun w => decide (w.length = d.wordBegin.length)) := by
  induction cands with
  | nil => intro d; simp [Dict.pushAll]
  | cons c cs ih =>
    intro d
    show ((d.push c).pushAll cs).words = _
    rw [ih, Dict.push_wordBegin, Dict.push_words]
    by_cases hl : c.length = d.wordBegin.length
    · simp [hl, List.filter_cons]
    · simp [hl, List.filter_cons]

theorem build_words (b e : Word) (cands : List Word) :
    (build b e cands).words = cands.filter (fun w => decide (w.length = b.length)) := by
  unfold build
  rw [Dict.pushAll_words]
  simp [Dict.new]

theorem diffCount_self (s : Word) : diffCount s s = 0 := by
  simp [diffCount]

theorem connect_same_anchor (w : Word) (candidates : List Word)
    (hw : w ∈ (build w w candidates).words)
    (hN : (build w w candidates).words.length ≤ UINT_MAX) :
    (build w w candidates).connect = some (3, build w w candidates) := by
  have hwf := build_wf w w candidates
  have hb : (build w w candidates).wordBegin ∈ (build w w candidates).words := by
    rw [build_wordBegin]; exact hw
  have he : (build w w candidates).wordEnd ∈ (build w w candidates).words := by
    rw [build_wordEnd]; exact hw
  have hF := lt_length_of_getElem? _ _ _ (hwf.first_present hb)
  have hL := lt_length_of_getElem? _ _ _ (hwf.last_present he)
  have hsame : (build w w candidates).indFirst = (build w w candidates).indLast :=
    hwf.same (by rw [build_wordBegin, build_wordEnd])
  obtain ⟨conn, st, _, _, _, hinv, hres⟩ := connect_spec _ hwf hF hL hN
  rcases hres with ⟨_, h3⟩ | ⟨hp, _⟩
  · exact h3
  · rw [← hsame] at hp
    exact absurd hinv.source_prev hp

/-! ## The claims -/

/-- C1: whenever `Dict::connect` returns 0 on the graph built from two anchors and a
candidate list, `seq` is a word ladder in destination-first order: it starts with the end
word, ends with the begin word, consists of retained words only, and every two consecutive
words have equal length and differ in exactly one position. -/
theorem connect_success_is_ladder (wordBegin wordEnd : Word) (candidates : List Word)
    (d1 : Dict) (h : (build wordBegin wordEnd candidates).connect = some (0, d1)) :
    IsLadder (build wordBegin wordEnd candidates).words wordEnd wordBegin d1.seq := by
  have hwf := build_wf wordBegin wordEnd candidates
  obtain ⟨hF, hL, hN⟩ := connect_zero_inv _ hwf d1 h
  obtain ⟨conn, st, _, hconn, _, _, hres⟩ := connect_spec _ hwf hF hL hN
  rcases hres with ⟨_, h3⟩ | ⟨_, trace, _, h0, t3, t4, t5, t6, _, _⟩
  · rw [h3] at h
    simp at h
  · rw [h0] at h
    simp only [Option.some.injEq, Prod.mk.injEq, true_and] at h
    subst h
    have hF2 : (build wordBegin wordEnd candidates).words[
        (build wordBegin wordEnd candidates).indFirst]? = some wordBegin := by
      rw [List.getElem?_eq_getElem hF]
      have hb : (build wordBegin wordEnd candidates).wordBegin
          ∈ (build wordBegin wordEnd candidates).words := by
        by_contra hc
        have := hwf.first_absent hc
        omega
      have := hwf.first_present hb
      rw [List.getElem?_eq_getElem hF, build_wordBegin] at this
      exact this
    have hL2 : (build wordBegin wordEnd candidates).words[
        (build wordBegin wordEnd candidates).indLast]? = some wordEnd := by
      have he : (build wordBegin wordEnd candidates).wordEnd
          ∈ (build wordBegin wordEnd candidates).words := by
        by_contra hc
        have := hwf.last_absent hc
        omega
      have := hwf.last_present he
      rw [build_wordEnd] at this
      exact this
    have := ladder_of_trace _ hwf conn hconn
      (by rw [build_wordBegin]; exact hF2) (by rw [build_wordEnd]; exact hL2) trace t3 t4 t5 t6
    rw [build_wordBegin, build_wordEnd] at this
    exact this

/-- Witness of C1: scenario B of the unit tests. -/
theorem connect_success_is_ladder_witness :
    (build "TON".toList "KOT".toList dictB).connect = some (0, resultB) ∧
    IsLadder (build "TON".toList "KOT".toList dictB).words "KOT".toList "TON".toList
      resultB.seq :=
  ⟨by decide, connect_success_is_ladder "TON".toList "KOT".toList dictB resultB (by decide)⟩

/-- C2 fails on the code: with the dictionary `dictDetour`, begin word `AAA` and end word
`CBA`, `Dict::connect` returns 0 with a sequence of five words, although the four words
`AAA, BAA, BBA, CBA` are a chain of retained words from the begin word to the end word. -/
theorem connect_not_shortest_example :
    (build "AAA".toList "CBA".toList dictDetour).connect
      = some (0, { build "AAA".toList "CBA".toList dictDetour with
          seq := ["CBA".toList, "CBC".toList, "ABC".toList, "AAC".toList, "AAA".toList] }) ∧
    IsLadder (build "AAA".toList "CBA".toList dictDetour).words "AAA".toList "CBA".toList
      ["AAA".toList, "BAA".toList, "BBA".toList, "CBA".toList] ∧
    ["AAA".toList, "BAA".toList, "BBA".toList, "CBA".toList].length
      < ["CBA".toList, "CBC".toList, "ABC".toList, "AAC".toList, "AAA".toList].length :=
  ⟨by decide,
    ⟨by decide, by decide, by decide,
      List.Chain'.cons (by decide) (List.Chain'.cons (by decide)
        (List.Chain'.cons (by decide) (List.chain'_singleton _)))⟩,
    by decide⟩

/-- C3 fails on the code: with the dictionary `dictDropped`, the distinct anchors `AAA`
and `CBA` are both retained and `AAA, BAA, BBA, CBA` is a chain of retained words between
them, yet `Dict::connect` returns 3 and leaves `seq` empty. -/
theorem connect_misses_chain_example :
    "AAA".toList ≠ "CBA".toList ∧
    "AAA".toList ∈ (build "AAA".toList "CBA".toList dictDropped).words ∧
    "CBA".toList ∈ (build "AAA".toList "CBA".toList dictDropped).words ∧
    IsLadder (build "AAA".toList "CBA".toList dictDropped).words "AAA".toList "CBA".toList
      ["AAA".toList, "BAA".toList, "BBA".toList, "CBA".toList] ∧
    (build "AAA".toList "CBA".toList dictDropped).connect
      = some (3, build "AAA".toList "CBA".toList dictDropped) ∧
    (build "AAA".toList "CBA".toList dictDropped).seq = [] :=
  ⟨by decide, by decide, by decide,
    ⟨by decide, by decide, by decide,
      List.Chain'.cons (by decide) (List.Chain'.cons (by decide)
        (List.Chain'.cons (by decide) (List.chain'_singleton _)))⟩,
    by decide, by decide⟩

/-- C4: when both anchors are retained (and the vertex count is within the range of the
32-bit loop counters) and no chain of retained words, consecutive ones adjacent, leads from
the begin word to the end word, `Dict::connect` returns 3 and `seq` is empty. -/
theorem connect_no_chain_returns_3 (wordBegin wordEnd : Word) (candidates : List Word)
    (hb : wordBegin ∈ (build wordBegin wordEnd candidates).words)
    (he : wordEnd ∈ (build wordBegin wordEnd candidates).words)
    (hN : (build wordBegin wordEnd candidates).words.length ≤ UINT_MAX)
    (hno : ¬ ∃ l, IsLadder (build wordBegin wordEnd candidates).words wordBegin wordEnd l) :
    (build wordBegin wordEnd candidates).connect
      = some (3, build wordBegin wordEnd candidates) ∧
    (build wordBegin wordEnd candidates).seq = [] := by
  have hwf := build_wf wordBegin wordEnd candidates
  refine ⟨?_, hwf.seq_nil⟩
  have hF2 := hwf.first_present (by rw [build_wordBegin]; exact hb)
  have hL2 := hwf.last_present (by rw [build_wordEnd]; exact he)
  have hF := lt_length_of_getElem? _ _ _ hF2
  have hL := lt_length_of_getElem? _ _ _ hL2
  obtain ⟨conn, st, _, hconn, _, _, hres⟩ := connect_spec _ hwf hF hL hN
  rcases hres with ⟨_, h3⟩ | ⟨_, trace, _, _, t3, t4, t5, t6, _, _⟩
  · exact h3
  · exfalso
    apply hno
    have := ladder_of_trace _ hwf conn hconn hF2 hL2 trace t3 t4 t5 t6
    rw [build_wordBegin, build_wordEnd] at this
    exact ⟨_, ladder_reverse _ _ _ _ this⟩

/-- Witness of C4: the two words `AA` and `BB` alone. -/
theorem connect_no_chain_returns_3_witness :
    (build "AA".toList "BB".toList dictApart).connect
      = some (3, build "AA".toList "BB".toList dictApart) ∧
    (build "AA".toList "BB".toList dictApart).seq = [] :=
  connect_no_chain_returns_3 "AA".toList "BB".toList dictApart (by decide) (by decide)
    (by decide)
    (by
      rintro ⟨l, h1, h2, h3, h4⟩
      have hw : (build "AA".toList "BB".toList dictApart).words
          = ["AA".toList, "BB".toList] := by decide
      rw [hw] at h3
      cases l with
      | nil => simp at h1
      | cons x xs =>
        simp only [List.head?_cons, Option.some.injEq] at h1
        subst h1
        cases xs with
        | nil => exact absurd h2 (by decide)
        | cons y ys =>
          have hy := h3 y (by simp)
          have hadj : Adjacent "AA".toList y := (List.chain'_cons.1 h4).1
          simp only [List.mem_cons, List.mem_singleton, List.not_mem_nil, or_false] at hy
          rcases hy with rfl | rfl
          · exact absurd hadj (by decide)
          · exact absurd hadj (by decide))

/-- C5 fails on the code: with begin word and end word both `A` and the candidate list
`[A]`, `Dict::connect` returns 3 and `seq` stays empty instead of becoming `[A]`. -/
theorem connect_same_anchor_example :
    "A".toList ∈ ["A".toList] ∧
    (build "A".toList "A".toList ["A".toList]).connect
      = some (3, build "A".toList "A".toList ["A".toList]) ∧
    (build "A".toList "A".toList ["A".toList]).seq = [] :=
  ⟨by decide, by decide, by decide⟩

/-- C6: for two words of equal length `Dict::areNeighbours` returns, and returns true
exactly when the words differ in exactly one position; in particular it returns false for
identical words. -/
theorem areNeighbours_iff_one_mismatch (s1 s2 : Word) (h : s1.length = s2.length) :
    areNeighbours s1 s2 = some (decide (diffCount s1 s2 = 1)) ∧
    (areNeighbours s1 s2 = some true ↔ diffCount s1 s2 = 1) ∧
    (s1 = s2 → areNeighbours s1 s2 = some false) := by
  have hmain := areNeighbours_eq s1 s2 h
  refine ⟨hmain, ?_, ?_⟩
  · rw [hmain]
    simp
  · intro he
    subst he
    rw [hmain, diffCount_self]
    rfl

/-- Witness of C6: the words `ABC` and `ABB` of the unit test. -/
theorem areNeighbours_iff_one_mismatch_witness :
    areNeighbours "ABC".toList "ABB".toList
      = some (decide (diffCount "ABC".toList "ABB".toList = 1)) ∧
    (areNeighbours "ABC".toList "ABB".toList = some true
      ↔ diffCount "ABC".toList "ABB".toList = 1) ∧
    ("ABC".toList = "ABB".toList → areNeighbours "ABC".toList "ABB".toList = some false) :=
  areNeighbours_iff_one_mismatch "ABC".toList "ABB".toList (by decide)

/-- C7: for anchors of equal length, when the candidates that have the anchors' length do
not contain the begin word or do not contain the end word, `Dict::connect` returns 2 at its
first test, leaving the object unchanged and `seq` empty. -/
theorem connect_missing_anchor (wordBegin wordEnd : Word) (candidates : List Word)
    (_hlen : wordBegin.length = wordEnd.length)
    (h : wordBegin ∉ candidates.filter (fun w => decide (w.length = wordBegin.length)) ∨
         wordEnd ∉ candidates.filter (fun w => decide (w.length = wordBegin.length))) :
    (build wordBegin wordEnd candidates).connect = some (2, build wordBegin wordEnd candidates) ∧
      (build wordBegin wordEnd candidates).seq = [] := by
  have hwf := build_wf wordBegin wordEnd candidates
  refine ⟨?_, hwf.seq_nil⟩
  rw [← build_words wordBegin wordEnd candidates] at h
  unfold Dict.connect
  rw [if_pos]
  rcases h with h | h
  · left
    apply hwf.first_absent
    rw [build_wordBegin]; exact h
  · right
    apply hwf.last_absent
    rw [build_wordEnd]; exact h

/-- Witness of C7: the end word `CD` is no candidate (`CD ` has another length). -/
theorem connect_missing_anchor_witness :
    (build "AB".toList "CD".toList ["AB".toList, "ABC".toList, "CD ".toList]).connect
      = some (2, build "AB".toList "CD".toList ["AB".toList, "ABC".toList, "CD ".toList]) ∧
    (build "AB".toList "CD".toList ["AB".toList, "ABC".toList, "CD ".toList]).seq = [] :=
  connect_missing_anchor _ _ _ (by decide) (by decide)

/-- C8 fails on the code: `AAA` is shorter than `AABB`, every character read is defined,
and `Dict::areNeighbours` returns true. -/
theorem areNeighbours_shorter_first_example :
    "AAA".toList.length < "AABB".toList.length ∧
    areNeighbours "AAA".toList "AABB".toList = some true :=
  ⟨by decide, by decide⟩

/-- C9: `Dict::areNeighbours` is symmetric on words of equal length. -/
theorem areNeighbours_symm (s1 s2 : Word) (h : s1.length = s2.length) :
    areNeighbours s1 s2 = areNeighbours s2 s1 := by
  rw [areNeighbours_eq s1 s2 h, areNeighbours_eq s2 s1 h.symm, diffCount_comm s1 s2 h]

/-- Witness of C9: the words `ABCD` and `AZCD` of the unit test. -/
theorem areNeighbours_symm_witness :
    areNeighbours "ABCD".toList "AZCD".toList = areNeighbours "AZCD".toList "ABCD".toList :=
  areNeighbours_symm "ABCD".toList "AZCD".toList (by decide)

/-- C10: whenever `Dict::connect` returns 0, `seq` has at most as many elements as there
are vertices, and the indices that the reconstruction loop visits from `indLast` along
`previousVertex` are pairwise distinct (`seq` being the words at these indices). -/
theorem connect_seq_bounded_distinct (wordBegin wordEnd : Word) (candidates : List Word)
    (d1 : Dict) (h : (build wordBegin wordEnd candidates).connect = some (0, d1)) :
    d1.seq.length ≤ (build wordBegin wordEnd candidates).words.length ∧
    ∃ st trace, search (build wordBegin wordEnd candidates) = some st ∧
      walkIndices (build wordBegin wordEnd candidates).words st.previousVertex
        (build wordBegin wordEnd candidates).indFirst
        (build wordBegin wordEnd candidates).words.length
        (build wordBegin wordEnd candidates).indLast [] = some trace ∧
      trace.Nodup ∧
      d1.seq = trace.map (fun k => (build wordBegin wordEnd candidates).words.getD k []) := by
  have hwf := build_wf wordBegin wordEnd candidates
  obtain ⟨hF, hL, hN⟩ := connect_zero_inv _ hwf d1 h
  obtain ⟨conn, st, _, _, hsearch, _, hres⟩ := connect_spec _ hwf hF hL hN
  rcases hres with ⟨_, h3⟩ | ⟨_, trace, t1, h0, _, _, _, _, t7, t8⟩
  · rw [h3] at h
    simp at h
  · rw [h0] at h
    simp only [Option.some.injEq, Prod.mk.injEq, true_and] at h
    subst h
    refine ⟨?_, st, trace, hsearch, t1, t7, rfl⟩
    simp only [List.length_map]
    exact t8

/-- Witness of C10: scenario B of the unit tests. -/
theorem connect_seq_bounded_distinct_witness :
    resultB.seq.length ≤ (build "TON".toList "KOT".toList dictB).words.length ∧
    ∃ st trace, search (build "TON".toList "KOT".toList dictB) = some st ∧
      walkIndices (build "TON".toList "KOT".toList dictB).words st.previousVertex
        (build "TON".toList "KOT".toList dictB).indFirst
        (build "TON".toList "KOT".toList dictB).words.length
        (build "TON".toList "KOT".toList dictB).indLast [] = some trace ∧
      trace.Nodup ∧
      resultB.seq = trace.map (fun k => (build "TON".toList "KOT".toList dictB).words.getD k []) :=
  connect_seq_bounded_distinct "TON".toList "KOT".toList dictB resultB (by decide)

/-! ## Lemmas for the claims on `push`, `readFiles` and `connections` -/

theorem Dict.push_index_bound (d : Dict) (w : Word)
    (h : (∀ j, d.words[j]? = some d.wordBegin → j ≤ d.indFirst) ∧
      (∀ j, d.words[j]? = some d.wordEnd → j ≤ d.indLast)) :
    (∀ j, (d.push w).words[j]? = some (d.push w).wordBegin → j ≤ (d.push w).indFirst) ∧
      (∀ j, (d.push w).words[j]? = some (d.push w).wordEnd → j ≤ (d.push w).indLast) := by
  by_cases hl : w.length = d.wordBegin.length
  · constructor
    · intro j hj
      rw [Dict.push_words, if_pos hl, Dict.push_wordBegin] at hj
      rw [Dict.push_indFirst]
      have hjlt := lt_length_of_getElem? _ _ _ hj
      rw [List.length_append, List.length_singleton] at hjlt
      by_cases hw : w = d.wordBegin
      · rw [if_pos ⟨hl, hw⟩]; omega
      · rw [if_neg (fun hc => hw hc.2)]
        by_cases hjl : j < d.words.length
        · rw [List.getElem?_append_left hjl] at hj
          exact h.1 j hj
        · have hje : j = d.words.length := by omega
          subst hje
          simp at hj
          exact absurd hj hw
    · intro j hj
      rw [Dict.push_words, if_pos hl, Dict.push_wordEnd] at hj
      rw [Dict.push_indLast]
      have hjlt := lt_length_of_getElem? _ _ _ hj
      rw [List.length_append, List.length_singleton] at hjlt
      by_cases hw : w = d.wordEnd
      · rw [if_pos ⟨hl, hw⟩]; omega
      · rw [if_neg (fun hc => hw hc.2)]
        by_cases hjl : j < d.words.length
        · rw [List.getElem?_append_left hjl] at hj
          exact h.2 j hj
        · have hje : j = d.words.length := by omega
          subst hje
          simp at hj
          exact absurd hj hw
  · have : d.push w = d := by
      unfold Dict.push
      rw [if_pos hl]
    rw [this]; exact h

theorem Dict.pushAll_index_bound (cands : List Word) :
    ∀ d : Dict,
      ((∀ j, d.words[j]? = some d.wordBegin → j ≤ d.indFirst) ∧
        (∀ j, d.words[j]? = some d.wordEnd → j ≤ d.indLast)) →
      ((∀ j, (d.pushAll cands).words[j]? = some (d.pushAll cands).wordBegin →
          j ≤ (d.pushAll cands).indFirst) ∧
        (∀ j, (d.pushAll cands).words[j]? = some (d.pushAll cands).wordEnd →
          j ≤ (d.pushAll cands).indLast)) := by
  induction cands with
  | nil => intro d h; exact h
  | cons c cs ih => intro d h; exact ih (d.push c) (Dict.push_index_bound d c h)

theorem Dict.push_other_length (d : Dict) (w : Word) (h : w.length ≠ d.wordBegin.length) :
    d.push w = d := by
  unfold Dict.push
  rw [if_pos h]

/-! ## The claims, continued -/

/-- C11: the vertex list of the graph built from a candidate list is the sub-list of the
candidates that have the length of the begin word, in the original order and with
duplicates kept (pushing into any object appends exactly these), and pushing a candidate
of another length leaves the whole object, hence `words`, `indFirst` and `indLast`,
unchanged. -/
theorem push_keeps_begin_length (wordBegin wordEnd : Word) (candidates : List Word)
    (d : Dict) (word : Word) (h : word.length ≠ d.wordBegin.length) :
    (build wordBegin wordEnd candidates).words
        = candidates.filter (fun w => decide (w.length = wordBegin.length)) ∧
      (d.pushAll candidates).words
        = d.words ++ candidates.filter (fun w => decide (w.length = d.wordBegin.length)) ∧
      d.push word = d :=
  ⟨build_words wordBegin wordEnd candidates, Dict.pushAll_words candidates d,
    Dict.push_other_length d word h⟩

/-- Witness of C11: the candidates `KOT, TOTO, KOT, T` pushed for the begin word `TON`,
and `TOTO` pushed into the graph of scenario B. -/
theorem push_keeps_begin_length_witness :
    (build "TON".toList "KOT".toList
        ["KOT".toList, "TOTO".toList, "KOT".toList, "T".toList]).words
      = ["KOT".toList, "TOTO".toList, "KOT".toList, "T".toList].filter
          (fun w => decide (w.length = "TON".toList.length)) ∧
    ((build "TON".toList "KOT".toList dictB).pushAll
        ["KOT".toList, "TOTO".toList, "KOT".toList, "T".toList]).words
      = (build "TON".toList "KOT".toList dictB).words ++
          ["KOT".toList, "TOTO".toList, "KOT".toList, "T".toList].filter
            (fun w => decide
              (w.length = (build "TON".toList "KOT".toList dictB).wordBegin.length)) ∧
    (build "TON".toList "KOT".toList dictB).push "TOTO".toList
      = build "TON".toList "KOT".toList dictB :=
  push_keeps_begin_length "TON".toList "KOT".toList
    ["KOT".toList, "TOTO".toList, "KOT".toList, "T".toList]
    (build "TON".toList "KOT".toList dictB) "TOTO".toList (by decide)

/-- C12: when the begin word and the end word have different lengths, `readFiles` returns
before a `Dict` is made: the caller's `seq` comes back as it was, empty when it was empty,
whatever the candidate list is. -/
theorem readFiles_length_mismatch (wordBegin wordEnd : Word)
    (h : wordBegin.length ≠ wordEnd.length) (candidates other : List Word)
    (seq : List Word) :
    readFiles wordBegin wordEnd candidates [] = some [] ∧
      readFiles wordBegin wordEnd candidates seq = some seq ∧
      readFiles wordBegin wordEnd candidates seq = readFiles wordBegin wordEnd other seq := by
  unfold readFiles
  simp only [if_pos h]
  exact ⟨trivial, trivial, trivial⟩

/-- Witness of C12: the words `AAA` and `AAAB` with two different candidate lists. -/
theorem readFiles_length_mismatch_witness :
    readFiles "AAA".toList "AAAB".toList dictA [] = some [] ∧
      readFiles "AAA".toList "AAAB".toList dictA [] = some [] ∧
      readFiles "AAA".toList "AAAB".toList dictA []
        = readFiles "AAA".toList "AAAB".toList dictB [] :=
  readFiles_length_mismatch "AAA".toList "AAAB".toList (by decide) dictA dictB []

/-- C13: scenario A. Pushing `XYZ, XYX, ZYX, ZYY, ZXY` into `Dict(ZXY, XYZ)` and calling
`connect` returns 0 with `seq = [XYZ, XYX, ZYX, ZYY, ZXY]`; so does `readFiles`. -/
theorem connect_scenario_A :
    (build "ZXY".toList "XYZ".toList dictA).connect
      = some (0, { build "ZXY".toList "XYZ".toList dictA with
          seq := ["XYZ".toList, "XYX".toList, "ZYX".toList, "ZYY".toList, "ZXY".toList] }) ∧
    readFiles "ZXY".toList "XYZ".toList dictA []
      = some ["XYZ".toList, "XYX".toList, "ZYX".toList, "ZYY".toList, "ZXY".toList] :=
  ⟨by decide, by decide⟩

/-- C16 as stated fails: with the candidates `A, B, A, B` and the anchors `A` and `B`,
`indFirst` is 2 and `indLast` is 3, while the first occurrences are at 0 and 1. -/
theorem push_first_occurrence_counterexample :
    (build "A".toList "B".toList dictTwice).words = dictTwice ∧
    (build "A".toList "B".toList dictTwice).indFirst = 2 ∧
    List.indexOf "A".toList (build "A".toList "B".toList dictTwice).words = 0 ∧
    (build "A".toList "B".toList dictTwice).indFirst
      ≠ List.indexOf "A".toList (build "A".toList "B".toList dictTwice).words ∧
    (build "A".toList "B".toList dictTwice).indLast = 3 ∧
    List.indexOf "B".toList (build "A".toList "B".toList dictTwice).words = 1 ∧
    (build "A".toList "B".toList dictTwice).indLast
      ≠ List.indexOf "B".toList (build "A".toList "B".toList dictTwice).words := by
  decide

/-- C16, amended: when the begin word (the end word) occurs among the retained
candidates, `indFirst` (`indLast`) is the index of its last occurrence: the word stands at
that index and at no later one. -/
theorem push_last_occurrence (wordBegin wordEnd : Word) (candidates : List Word) :
    (wordBegin ∈ (build wordBegin wordEnd candidates).words →
      (build wordBegin wordEnd candidates).words[
          (build wordBegin wordEnd candidates).indFirst]? = some wordBegin ∧
        ∀ j, (build wordBegin wordEnd candidates).words[j]? = some wordBegin →
          j ≤ (build wordBegin wordEnd candidates).indFirst) ∧
    (wordEnd ∈ (build wordBegin wordEnd candidates).words →
      (build wordBegin wordEnd candidates).words[
          (build wordBegin wordEnd candidates).indLast]? = some wordEnd ∧
        ∀ j, (build wordBegin wordEnd candidates).words[j]? = some wordEnd →
          j ≤ (build wordBegin wordEnd candidates).indLast) := by
  have hwf := build_wf wordBegin wordEnd candidates
  have hlast := Dict.pushAll_index_bound candidates (Dict.new wordBegin wordEnd)
    (by simp [Dict.new])
  have hb := build_wordBegin wordBegin wordEnd candidates
  have he := build_wordEnd wordBegin wordEnd candidates
  constructor
  · intro hmem
    constructor
    · have := hwf.first_present (by rw [hb]; exact hmem)
      rw [hb] at this
      exact this
    · intro j hj
      exact hlast.1 j (by rw [Dict.pushAll_wordBegin]; exact hj)
  · intro hmem
    constructor
    · have := hwf.last_present (by rw [he]; exact hmem)
      rw [he] at this
      exact this
    · intro j hj
      exact hlast.2 j (by rw [Dict.pushAll_wordEnd]; exact hj)

/-- Witness of C16, amended: the candidates `A, B, A, B`. -/
theorem push_last_occurrence_witness :
    ((build "A".toList "B".toList dictTwice).words[
          (build "A".toList "B".toList dictTwice).indFirst]? = some "A".toList ∧
        ∀ j, (build "A".toList "B".toList dictTwice).words[j]? = some "A".toList →
          j ≤ (build "A".toList "B".toList dictTwice).indFirst) ∧
    ((build "A".toList "B".toList dictTwice).words[
          (build "A".toList "B".toList dictTwice).indLast]? = some "B".toList ∧
        ∀ j, (build "A".toList "B".toList dictTwice).words[j]? = some "B".toList →
          j ≤ (build "A".toList "B".toList dictTwice).indLast) :=
  ⟨(push_last_occurrence "A".toList "B".toList dictTwice).1 (by decide),
    (push_last_occurrence "A".toList "B".toList dictTwice).2 (by decide)⟩

/-- C17: for the vertices of a built graph the loop of `Dict::connect` produces the vector
`connections` of `N * N` cells, and for all `i, j < N` the cell `i + j * N` equals the
cell `j + i * N`, the cell `i + i * N` is false, and for `i ≠ j` the cell `i + j * N` is
true exactly when `areNeighbours(words[i], words[j])` returns true. -/
theorem connections_symmetric_irreflexive (wordBegin wordEnd : Word)
    (candidates : List Word) :
    ∃ conn, buildConnections (build wordBegin wordEnd candidates).words = some conn ∧
      conn.length = (build wordBegin wordEnd candidates).words.length
        * (build wordBegin wordEnd candidates).words.length ∧
      ∀ i j, i < (build wordBegin wordEnd candidates).words.length →
        j < (build wordBegin wordEnd candidates).words.length →
        conn.getD (i + j * (build wordBegin wordEnd candidates).words.length) false
          = conn.getD (j + i * (build wordBegin wordEnd candidates).words.length) false ∧
        conn.getD (i + i * (build wordBegin wordEnd candidates).words.length) false = false ∧
        (i ≠ j →
          (conn.getD (i + j * (build wordBegin wordEnd candidates).words.length) false = true
            ↔ areNeighbours ((build wordBegin wordEnd candidates).words.getD i [])
                ((build wordBegin wordEnd candidates).words.getD j []) = some true)) := by
  have hwf := build_wf wordBegin wordEnd candidates
  obtain ⟨conn, c1, c2, c3⟩ := buildConnections_spec (build wordBegin wordEnd candidates).words
    _ hwf.len
  refine ⟨conn, c1, c2, ?_⟩
  intro i j hi hj
  refine ⟨?_, ?_, ?_⟩
  · rw [c3 i j hi hj, c3 j i hj hi, nbValue_comm _ _ hwf.len hi hj]
    by_cases hij : i = j
    · subst hij; rfl
    · have hji : j ≠ i := fun hc => hij hc.symm
      simp [hij, hji]
  · rw [c3 i i hi hi]
    simp
  · intro hij
    rw [c3 i j hi hj, areNeighbours_eq _ _ (by
      rw [hwf.len _ (getD_mem _ _ _ hi), hwf.len _ (getD_mem _ _ _ hj)])]
    simp [hij, nbValue]

/-- Witness of C17: the cells for the vertices 0 and 1 of scenario B. -/
theorem connections_symmetric_irreflexive_witness :
    ∃ conn, buildConnections (build "TON".toList "KOT".toList dictB).words = some conn ∧
      conn.getD (0 + 1 * (build "TON".toList "KOT".toList dictB).words.length) false
        = conn.getD (1 + 0 * (build "TON".toList "KOT".toList dictB).words.length) false ∧
      conn.getD (0 + 0 * (build "TON".toList "KOT".toList dictB).words.length) false = false ∧
      (0 ≠ 1 →
        (conn.getD (0 + 1 * (build "TON".toList "KOT".toList dictB).words.length) false = true
          ↔ areNeighbours ((build "TON".toList "KOT".toList dictB).words.getD 0 [])
              ((build "TON".toList "KOT".toList dictB).words.getD 1 []) = some true)) := by
  obtain ⟨conn, c1, _, c3⟩ :=
    connections_symmetric_irreflexive "TON".toList "KOT".toList dictB
  exact ⟨conn, c1, c3 0 1 (by decide) (by decide)⟩

/-! ## Lemmas for the claims on the search loop -/

theorem selectLoop_lowest (score : List Nat) (is : List Nat) :
    ∀ (cs0 iv0 : Nat) (used0 : List Bool), (∀ i ∈ is, i < used0.length) →
      is.Pairwise (fun a b => a < b) →
      (selectLoop score is (cs0, iv0, used0)).1 < cs0 →
      ∀ i ∈ is, i < (selectLoop score is (cs0, iv0, used0)).2.1 →
        used0.getD i false = false →
        (selectLoop score is (cs0, iv0, used0)).1 < score.getD i 0 := by
  induction is with
  | nil =>
    intro cs0 iv0 used0 _ _ _ i hi
    simp at hi
  | cons i rest ih =>
    intro cs0 iv0 used0 hb hpw
    have hi : i < used0.length := hb i (List.mem_cons_self _ _)
    have hrest : ∀ k ∈ rest, k < used0.length := fun k hk => hb k (List.mem_cons_of_mem _ hk)
    have hpw2 := (List.pairwise_cons.1 hpw).2
    have hhead := (List.pairwise_cons.1 hpw).1
    by_cases hskip : used0.getD i false = true ∨ score.getD i 0 ≥ cs0
    · have heq : selectLoop score (i :: rest) (cs0, iv0, used0)
          = selectLoop score rest (cs0, iv0, used0) := by
        simp only [selectLoop]
        rw [if_pos hskip]
      rw [heq]
      intro hlt k hk hkiv hku
      rcases List.mem_cons.1 hk with rfl | hk
      · rcases hskip with h | h
        · rw [h] at hku; cases hku
        · omega
      · exact ih cs0 iv0 used0 hrest hpw2 hlt k hk hkiv hku
    · have hsc : score.getD i 0 < cs0 := by
        by_contra hc
        exact hskip (Or.inr (by omega))
      have heq : selectLoop score (i :: rest) (cs0, iv0, used0)
          = selectLoop score rest (score.getD i 0, i, used0.set i true) := by
        simp only [selectLoop]
        rw [if_neg hskip]
      rw [heq]
      have hs := selectLoop_spec score rest (score.getD i 0) i (used0.set i true)
        (fun k hk => by rw [List.length_set]; exact hrest k hk)
      intro _ k hk hkiv hku
      by_cases hlt : (selectLoop score rest (score.getD i 0, i, used0.set i true)).1
          < score.getD i 0
      · rcases List.mem_cons.1 hk with rfl | hk
        · exact hlt
        · have hne : i ≠ k := by have := hhead k hk; omega
          exact ih (score.getD i 0) i (used0.set i true)
            (fun k hk => by rw [List.length_set]; exact hrest k hk) hpw2 hlt k hk hkiv
            (by rw [getD_set_ne _ _ _ hne]; exact hku)
      · have he : (selectLoop score rest (score.getD i 0, i, used0.set i true)).1
            = score.getD i 0 := le_antisymm hs.le (by omega)
        have hiv := (hs.same he).2
        rw [hiv] at hkiv
        rcases List.mem_cons.1 hk with rfl | hk
        · omega
        · have := hhead k hk
          omega

theorem searchRound_used (N indLast : Nat) (conn : List Bool) (st : SearchState)
    (hlen : st.usedVertex.length = N) :
    (searchRound N indLast conn st).1.usedVertex.length = N ∧
    (∀ i, st.usedVertex.getD i false = true →
      (searchRound N indLast conn st).1.usedVertex.getD i false = true) ∧
    ((searchRound N indLast conn st).2 = true →
      (searchRound N indLast conn st).1.usedVertex.count false < st.usedVertex.count false ∧
      (searchRound N indLast conn st).1.indVertex < N ∧
      st.usedVertex.getD (searchRound N indLast conn st).1.indVertex false = false ∧
      (searchRound N indLast conn st).1.usedVertex.getD
        (searchRound N indLast conn st).1.indVertex false = true) := by
  have hs := selectLoop_spec st.score (List.range N) UINT_MAX st.indVertex st.usedVertex
    (fun i hi => by rw [hlen]; exact List.mem_range.1 hi)
  rw [searchRound_eq]
  generalize selectLoop st.score (List.range N) (UINT_MAX, st.indVertex, st.usedVertex) = r
    at hs
  obtain ⟨cs, iv, used⟩ := r
  simp only at hs ⊢
  have hl := hs.len
  have hm := hs.mono
  simp only at hl hm
  by_cases hbrk : cs = UINT_MAX
  · rw [if_pos hbrk]
    exact ⟨by rw [hl, hlen], hm, by simp⟩
  · rw [if_neg hbrk]
    have hlt : cs < UINT_MAX := lt_of_le_of_ne hs.le hbrk
    obtain ⟨hivmem, hivu, _, hivu2⟩ := hs.sel hlt
    exact ⟨by rw [hl, hlen], hm,
      fun _ => ⟨hs.count_lt hlt, List.mem_range.1 hivmem, hivu, hivu2⟩⟩

theorem searchLoop_terminates (N indLast : Nat) (conn : List Bool) :
    ∀ (fuel : Nat) (st : SearchState), st.usedVertex.length = N →
      st.usedVertex.count false < fuel →
      ∃ st1, searchLoop N indLast conn fuel st = some st1 := by
  intro fuel
  induction fuel with
  | zero => intro st _ h; omega
  | succ fuel ih =>
    intro st hlen hcount
    have hr := searchRound_used N indLast conn st hlen
    simp only [searchLoop]
    generalize searchRound N indLast conn st = rd at hr
    obtain ⟨st1, b⟩ := rd
    cases b with
    | false => exact ⟨st1, rfl⟩
    | true =>
      simp only at hr ⊢
      exact ih st1 hr.1 (by have := (hr.2.2 trivial).1; omega)

theorem stateAfter_used (N indLast : Nat) (conn : List Bool) :
    ∀ (k : Nat) (st st1 : SearchState), st.usedVertex.length = N →
      stateAfter N indLast conn k st = some st1 →
      st1.usedVertex.length = N ∧
      st1.usedVertex.count false + k ≤ st.usedVertex.count false ∧
      ∀ i, st.usedVertex.getD i false = true → st1.usedVertex.getD i false = true := by
  intro k
  induction k with
  | zero =>
    intro st st1 hlen h
    simp only [stateAfter, Option.some.injEq] at h
    subst h
    exact ⟨hlen, by omega, fun _ hi => hi⟩
  | succ k ih =>
    intro st st1 hlen h
    have hr := searchRound_used N indLast conn st hlen
    simp only [stateAfter] at h
    generalize searchRound N indLast conn st = rd at hr h
    obtain ⟨st2, b⟩ := rd
    cases b with
    | false => simp at h
    | true =>
      simp only at hr h
      obtain ⟨g1, g2, g3⟩ := ih st2 st1 hr.1 h
      have := (hr.2.2 trivial).1
      exact ⟨g1, by omega, fun i hi => g3 i (hr.2.1 i hi)⟩

theorem stateAfter_inv (N indFirst indLast : Nat) (conn : List Bool) (hN : N ≤ UINT_MAX) :
    ∀ (k : Nat) (st st1 : SearchState), SearchInv N indFirst conn st →
      stateAfter N indLast conn k st = some st1 → SearchInv N indFirst conn st1 := by
  intro k
  induction k with
  | zero =>
    intro st st1 hinv h
    simp only [stateAfter, Option.some.injEq] at h
    subst h
    exact hinv
  | succ k ih =>
    intro st st1 hinv h
    have hr := searchRound_inv N indFirst indLast conn st hN hinv
    simp only [stateAfter] at h
    generalize searchRound N indLast conn st = rd at hr h
    obtain ⟨st2, b⟩ := rd
    cases b with
    | false => simp at h
    | true =>
      simp only at hr h
      exact ih st2 st1 hr.1 h

theorem roundPoint_eq (N indLast : Nat) (conn : List Bool) (st : SearchState) (m : Nat) :
    roundPoint N indLast conn st m =
      if (selectRound N st).1 = UINT_MAX then
        { st with usedVertex := (selectRound N st).2.2, indVertex := (selectRound N st).2.1 }
      else
        { score := (relaxLoop N (selectRound N st).2.1 indLast ((selectRound N st).1 + 1)
              conn (List.range m) (st.score, st.previousVertex)).1,
          previousVertex := (relaxLoop N (selectRound N st).2.1 indLast
              ((selectRound N st).1 + 1) conn (List.range m)
              (st.score, st.previousVertex)).2,
          usedVertex := (selectRound N st).2.2,
          indVertex := (selectRound N st).2.1 } := by
  rfl

theorem roundPoint_full (N indLast : Nat) (conn : List Bool) (st : SearchState) :
    roundPoint N indLast conn st N = (searchRound N indLast conn st).1 := by
  rw [roundPoint_eq, searchRound_eq]
  unfold selectRound
  split_ifs <;> rfl

theorem roundPoint_inv (N indFirst indLast : Nat) (conn : List Bool) (st : SearchState)
    (m : Nat) (hN : N ≤ UINT_MAX) (h : SearchInv N indFirst conn st) :
    SearchInv N indFirst conn (roundPoint N indLast conn st m) := by
  have hs := selectLoop_spec st.score (List.range N) UINT_MAX st.indVertex st.usedVertex
    (fun i hi => by rw [h.used_len]; exact List.mem_range.1 hi)
  rw [roundPoint_eq]
  unfold selectRound
  generalize selectLoop st.score (List.range N) (UINT_MAX, st.indVertex, st.usedVertex) = r
    at hs
  obtain ⟨cs, iv, used⟩ := r
  simp only at hs ⊢
  by_cases hbrk : cs = UINT_MAX
  · rw [if_pos hbrk]
    have hsame := hs.same hbrk
    simp only at hsame
    simp only [hsame.1]
    exact ⟨h.score_len, h.prev_len, h.used_len, h.source, h.source_prev, h.score_le,
      h.used_finite, h.layered, h.prev_link, h.prev_some⟩
  · rw [if_neg hbrk]
    have hr := relaxLoop_spec N iv indLast (cs + 1) conn (List.range m) st.score
      st.previousVertex (by rw [h.score_len, h.prev_len])
    exact searchInv_relax N indFirst conn st hN h cs iv used hs hbrk _ _ hr

theorem score_lt_length (words : List Word) (indFirst : Nat) (conn : List Bool)
    (st : SearchState) (h : SearchInv words.length indFirst conn st) (j : Nat)
    (hj : j < words.length) (hfin : st.score.getD j 0 < UINT_MAX) :
    st.score.getD j 0 < words.length := by
  obtain ⟨t0, _, _, _, _, a5, _, a7, a8⟩ := walk_spec words indFirst conn st h
    (st.score.getD j 0) (st.score.getD j 0 + 1) j [] [] hj rfl hfin (by omega)
  have hnd : t0.Nodup := List.Pairwise.imp (fun hab he => by rw [he] at hab; omega) a7
  have := length_le_of_nodup_lt t0 words.length hnd (fun k hk => (a5 k hk).1)
  omega

theorem links_of_inv (words : List Word) (indFirst : Nat) (conn : List Bool)
    (st : SearchState) (h : SearchInv words.length indFirst conn st) :
    LinksReachSource words indFirst st := by
  intro j hj hfin
  have hlt := score_lt_length words indFirst conn st h j hj hfin
  obtain ⟨trace, t1, _, t3, t4, t5, _, t7, t8⟩ := walk_spec words indFirst conn st h
    (st.score.getD j 0) words.length j [] [] hj rfl hfin hlt
  have hnd : trace.Nodup := List.Pairwise.imp (fun hab he => by rw [he] at hab; omega) t7
  refine ⟨trace, by simpa using t1, t3, t4, hnd, by omega, ?_⟩
  intro v hv hne
  exact h.prev_some v (t5 v hv).1 hne (by have := (t5 v hv).2; omega)

theorem relaxWrites_spec (N iv indLast c : Nat) (conn : List Bool) (js : List Nat) :
    ∀ (score0 prev0 : List Nat),
      ∀ w ∈ relaxWrites N iv indLast c conn js (score0, prev0),
        w.2.2 = c ∧ c < w.2.1 ∧ w.2.1 = score0.getD w.1 0 := by
  induction js with
  | nil =>
    intro score0 prev0 w hw
    simp [relaxWrites] at hw
  | cons j rest ih =>
    intro score0 prev0 w hw
    by_cases hcond : score0.getD j 0 > c ∧ conn.getD (iv + j * N) false = true
    · have hj : j < score0.length := lt_length_of_getD_pos _ _ _ hcond.1
      by_cases hlast : j = indLast
      · simp only [relaxWrites] at hw
        rw [if_pos hcond, if_pos hlast] at hw
        simp only [List.mem_singleton] at hw
        subst hw
        exact ⟨rfl, hcond.1, rfl⟩
      · simp only [relaxWrites] at hw
        rw [if_pos hcond, if_neg hlast] at hw
        rcases List.mem_cons.1 hw with rfl | hw
        · exact ⟨rfl, hcond.1, rfl⟩
        · obtain ⟨h1, h2, h3⟩ := ih (score0.set j c) (prev0.set j iv) w hw
          refine ⟨h1, h2, ?_⟩
          by_cases hk : j = w.1
          · rw [← hk, getD_set_eq _ _ _ _ hj] at h3
            omega
          · rw [getD_set_ne _ _ _ hk] at h3
            exact h3
    · simp only [relaxWrites] at hw
      rw [if_neg hcond] at hw
      exact ih score0 prev0 w hw

theorem relaxLoop_eq_replay (N iv indLast c : Nat) (conn : List Bool) (js : List Nat) :
    ∀ (score0 prev0 : List Nat),
      relaxLoop N iv indLast c conn js (score0, prev0)
        = (relaxWrites N iv indLast c conn js (score0, prev0)).foldl
            (fun s w => (s.1.set w.1 w.2.2, s.2.set w.1 iv)) (score0, prev0) := by
  induction js with
  | nil =>
    intro score0 prev0
    simp [relaxLoop, relaxWrites]
  | cons j rest ih =>
    intro score0 prev0
    by_cases hcond : score0.getD j 0 > c ∧ conn.getD (iv + j * N) false = true
    · by_cases hlast : j = indLast
      · simp only [relaxLoop, relaxWrites]
        rw [if_pos hcond, if_pos hlast, if_pos hcond, if_pos hlast]
        rfl
      · simp only [relaxLoop, relaxWrites]
        rw [if_pos hcond, if_neg hlast, if_pos hcond, if_neg hlast, List.foldl_cons]
        exact ih (score0.set j c) (prev0.set j iv)
    · simp only [relaxLoop, relaxWrites]
      rw [if_neg hcond, if_neg hcond]
      exact ih score0 prev0

/-- C14 fails on the code: in the third round for the dictionary `dictDropped` (begin word
`AAA`, end word `CBA`) the selection scan turns two entries of `usedVertex` from false to
true, the one of vertex 0 (`BBA`, scanned first and superseded) and the one of the selected
vertex 3 (`AAC`). -/
theorem selection_marks_superseded_example :
    ∃ conn st,
      buildConnections (build "AAA".toList "CBA".toList dictDropped).words = some conn ∧
      stateAfter (build "AAA".toList "CBA".toList dictDropped).words.length
        (build "AAA".toList "CBA".toList dictDropped).indLast conn 2
        (initState (build "AAA".toList "CBA".toList dictDropped)) = some st ∧
      st.usedVertex = [false, true, true, false, false] ∧
      (searchRound (build "AAA".toList "CBA".toList dictDropped).words.length
        (build "AAA".toList "CBA".toList dictDropped).indLast conn st).1.usedVertex
        = [true, true, true, true, false] ∧
      (searchRound (build "AAA".toList "CBA".toList dictDropped).words.length
        (build "AAA".toList "CBA".toList dictDropped).indLast conn st).1.indVertex = 3 ∧
      (searchRound (build "AAA".toList "CBA".toList dictDropped).words.length
        (build "AAA".toList "CBA".toList dictDropped).indLast conn st).2 = true :=
  ⟨_, _, rfl, rfl, rfl, rfl, rfl, rfl⟩

/-- C15: in a selection round in which some unvisited vertex `i0` has a finite score, the
loop goes on to the relaxation, and the vertex `indVertex` it relaxes from was unvisited at
the start of the round, has the minimum score of the vertices unvisited then, and every
unvisited vertex of lower index has a strictly greater score. -/
theorem selection_picks_lowest_minimum (N indLast : Nat) (conn : List Bool)
    (st : SearchState) (hlen : st.usedVertex.length = N) (i0 : Nat) (hi0 : i0 < N)
    (hu : st.usedVertex.getD i0 false = false) (hfin : st.score.getD i0 0 < UINT_MAX) :
    (searchRound N indLast conn st).2 = true ∧
    (searchRound N indLast conn st).1.indVertex < N ∧
    st.usedVertex.getD (searchRound N indLast conn st).1.indVertex false = false ∧
    (∀ i, i < N → st.usedVertex.getD i false = false →
      st.score.getD (searchRound N indLast conn st).1.indVertex 0 ≤ st.score.getD i 0) ∧
    (∀ i, i < (searchRound N indLast conn st).1.indVertex →
      st.usedVertex.getD i false = false →
      st.score.getD (searchRound N indLast conn st).1.indVertex 0 < st.score.getD i 0) ∧
    ((searchRound N indLast conn st).1.score, (searchRound N indLast conn st).1.previousVertex)
      = relaxLoop N (searchRound N indLast conn st).1.indVertex indLast
          (st.score.getD (searchRound N indLast conn st).1.indVertex 0 + 1) conn
          (List.range N) (st.score, st.previousVertex) := by
  have hb : ∀ i ∈ List.range N, i < st.usedVertex.length :=
    fun i hi => by rw [hlen]; exact List.mem_range.1 hi
  have hs := selectLoop_spec st.score (List.range N) UINT_MAX st.indVertex st.usedVertex hb
  have hlow := selectLoop_lowest st.score (List.range N) UINT_MAX st.indVertex st.usedVertex
    hb (List.pairwise_lt_range N)
  rw [searchRound_eq]
  generalize selectLoop st.score (List.range N) (UINT_MAX, st.indVertex, st.usedVertex) = r
    at hs hlow
  obtain ⟨cs, iv, used⟩ := r
  simp only at hs hlow ⊢
  have hmin := hs.min i0 (List.mem_range.2 hi0) hu
  simp only at hmin
  have hlt : cs < UINT_MAX := by omega
  have hbrk : ¬ cs = UINT_MAX := by omega
  rw [if_neg hbrk]
  obtain ⟨hivmem, hivu, hivs, _⟩ := hs.sel hlt
  simp only at hivmem hivu hivs
  refine ⟨rfl, List.mem_range.1 hivmem, hivu, ?_, ?_, ?_⟩
  · intro i hi hiu
    rw [hivs]
    exact hs.min i (List.mem_range.2 hi) hiu
  · intro i hi hiu
    have hi2 : i < iv := hi
    have hivN : iv < N := List.mem_range.1 hivmem
    rw [hivs]
    exact hlow hlt i (List.mem_range.2 (by omega)) hi2 hiu
  · simp only [hivs]

/-- Witness of C15: the third round for the dictionary `dictDropped`, where vertex 0
(`BBA`, score 2) and vertex 3 (`AAC`, score 1) are unvisited and vertex 3 is selected. -/
theorem selection_picks_lowest_minimum_witness :
    (searchRound 5 4 [] ⟨[2, 1, 0, 1, UINT_MAX], [1, 2, UINT_MAX, 2, UINT_MAX],
      [false, true, true, false, false], 1⟩).1.indVertex = 3 ∧
    (searchRound 5 4 [] ⟨[2, 1, 0, 1, UINT_MAX], [1, 2, UINT_MAX, 2, UINT_MAX],
      [false, true, true, false, false], 1⟩).2 = true :=
  ⟨by decide,
    (selection_picks_lowest_minimum 5 4 [] ⟨[2, 1, 0, 1, UINT_MAX],
      [1, 2, UINT_MAX, 2, UINT_MAX], [false, true, true, false, false], 1⟩ (by decide) 0
      (by decide) (by decide) (by decide)).1⟩

/-- C18: when both anchors are vertices (at most `UINT_MAX` of them), at the start of every
round of the search, after every step of its relaxation loop and in the state at the
`break`, following `previousVertex` from any vertex with a finite score reaches the begin
vertex within `N` visited vertices, without a repeated vertex and without a predecessor
`UINT_MAX` on the way; and the reconstruction loop, when it is reached, returns. -/
theorem predecessor_links_reach_source (wordBegin wordEnd : Word) (candidates : List Word)
    (hb : wordBegin ∈ (build wordBegin wordEnd candidates).words)
    (he : wordEnd ∈ (build wordBegin wordEnd candidates).words)
    (hN : (build wordBegin wordEnd candidates).words.length ≤ UINT_MAX) :
    (∀ conn k st m,
      stateAfter (build wordBegin wordEnd candidates).words.length
        (build wordBegin wordEnd candidates).indLast conn k
        (initState (build wordBegin wordEnd candidates)) = some st →
      LinksReachSource (build wordBegin wordEnd candidates).words
        (build wordBegin wordEnd candidates).indFirst
        (roundPoint (build wordBegin wordEnd candidates).words.length
          (build wordBegin wordEnd candidates).indLast conn st m)) ∧
    (∃ st, search (build wordBegin wordEnd candidates) = some st ∧
      LinksReachSource (build wordBegin wordEnd candidates).words
        (build wordBegin wordEnd candidates).indFirst st ∧
      (st.previousVertex.getD (build wordBegin wordEnd candidates).indLast 0 ≠ UINT_MAX →
        ∃ seq, walkLoop (build wordBegin wordEnd candidates).words st.previousVertex
          (build wordBegin wordEnd candidates).indFirst
          (build wordBegin wordEnd candidates).words.length
          (build wordBegin wordEnd candidates).indLast
          (build wordBegin wordEnd candidates).seq = some seq)) := by
  have hwf := build_wf wordBegin wordEnd candidates
  have hF := lt_length_of_getElem? _ _ _
    (hwf.first_present (by rw [build_wordBegin]; exact hb))
  have hL := lt_length_of_getElem? _ _ _
    (hwf.last_present (by rw [build_wordEnd]; exact he))
  constructor
  · intro conn k st m hst
    have hinv := stateAfter_inv _ _ _ conn hN k _ st
      (initState_inv (build wordBegin wordEnd candidates) conn hF) hst
    exact links_of_inv _ _ conn _ (roundPoint_inv _ _ _ conn st m hN hinv)
  · obtain ⟨conn, st, _, _, hsearch, hinv, _⟩ := connect_spec _ hwf hF hL hN
    refine ⟨st, hsearch, links_of_inv _ _ conn st hinv, ?_⟩
    intro hp
    have hfin := (hinv.prev_link _ hL hp).2.2.2
    have hlt := score_lt_length _ _ conn st hinv _ hL hfin
    obtain ⟨trace, _, t2, _⟩ := walk_spec _ _ conn st hinv _
      (build wordBegin wordEnd candidates).words.length _
      (build wordBegin wordEnd candidates).seq [] hL rfl hfin hlt
    exact ⟨_, t2⟩

/-- Witness of C18: scenario B of the unit tests. -/
theorem predecessor_links_reach_source_witness :
    ∃ st, search (build "TON".toList "KOT".toList dictB) = some st ∧
      LinksReachSource (build "TON".toList "KOT".toList dictB).words
        (build "TON".toList "KOT".toList dictB).indFirst st ∧
      (st.previousVertex.getD (build "TON".toList "KOT".toList dictB).indLast 0 ≠ UINT_MAX →
        ∃ seq, walkLoop (build "TON".toList "KOT".toList dictB).words st.previousVertex
          (build "TON".toList "KOT".toList dictB).indFirst
          (build "TON".toList "KOT".toList dictB).words.length
          (build "TON".toList "KOT".toList dictB).indLast
          (build "TON".toList "KOT".toList dictB).seq = some seq) :=
  (predecessor_links_reach_source "TON".toList "KOT".toList dictB (by decide) (by decide)
    (by decide)).2

/-- C19: in every round of the search that gets to the relaxation (begin word a vertex, at
most `UINT_MAX` vertices), the pass performs exactly the writes of `roundWrites`; each of
them stores a value no larger than the value it replaces, replaces `UINT_MAX` (so a finite
score is never written again), and goes to a vertex that is not marked in `usedVertex`,
neither at the start of the round nor after the selection scan of the round. -/
theorem score_writes_monotone (wordBegin wordEnd : Word) (candidates : List Word)
    (hb : wordBegin ∈ (build wordBegin wordEnd candidates).words)
    (hN : (build wordBegin wordEnd candidates).words.length ≤ UINT_MAX)
    (conn : List Bool) (k : Nat) (st : SearchState)
    (hst : stateAfter (build wordBegin wordEnd candidates).words.length
      (build wordBegin wordEnd candidates).indLast conn k
      (initState (build wordBegin wordEnd candidates)) = some st)
    (hgo : (selectRound (build wordBegin wordEnd candidates).words.length st).1 ≠ UINT_MAX) :
    ((searchRound (build wordBegin wordEnd candidates).words.length
        (build wordBegin wordEnd candidates).indLast conn st).1.score,
      (searchRound (build wordBegin wordEnd candidates).words.length
        (build wordBegin wordEnd candidates).indLast conn st).1.previousVertex)
      = (roundWrites (build wordBegin wordEnd candidates).words.length
          (build wordBegin wordEnd candidates).indLast conn st).foldl
          (fun s w => (s.1.set w.1 w.2.2,
            s.2.set w.1 (selectRound (build wordBegin wordEnd candidates).words.length st).2.1))
          (st.score, st.previousVertex) ∧
    ∀ w ∈ roundWrites (build wordBegin wordEnd candidates).words.length
        (build wordBegin wordEnd candidates).indLast conn st,
      w.2.2 ≤ w.2.1 ∧ w.2.1 = UINT_MAX ∧ st.usedVertex.getD w.1 false = false ∧
      (selectRound (build wordBegin wordEnd candidates).words.length st).2.2.getD w.1 false
        = false := by
  have hwf := build_wf wordBegin wordEnd candidates
  have hF := lt_length_of_getElem? _ _ _
    (hwf.first_present (by rw [build_wordBegin]; exact hb))
  have hinv := stateAfter_inv _ _ _ conn hN k _ st
    (initState_inv (build wordBegin wordEnd candidates) conn hF) hst
  have hs := selectLoop_spec st.score
    (List.range (build wordBegin wordEnd candidates).words.length) UINT_MAX st.indVertex
    st.usedVertex (fun i hi => by rw [hinv.used_len]; exact List.mem_range.1 hi)
  constructor
  · rw [searchRound_eq]
    unfold roundWrites selectRound
    unfold selectRound at hgo
    rw [if_neg hgo]
    exact relaxLoop_eq_replay _ _ _ _ conn _ st.score st.previousVertex
  · intro w hw
    unfold roundWrites at hw
    obtain ⟨h1, h2, h3⟩ := relaxWrites_spec _ _ _ _ conn _ st.score st.previousVertex w hw
    unfold selectRound at hgo h1 h2 ⊢
    generalize selectLoop st.score
      (List.range (build wordBegin wordEnd candidates).words.length)
      (UINT_MAX, st.indVertex, st.usedVertex) = r at hs hgo h1 h2 ⊢
    obtain ⟨cs, iv, used⟩ := r
    simp only at hs hgo h1 h2 ⊢
    have hlt : cs < UINT_MAX := lt_of_le_of_ne hs.le hgo
    obtain ⟨hivmem, hivu, hivs, _⟩ := hs.sel hlt
    simp only at hivmem hivu hivs
    have hbound : ∀ j, st.score.getD j 0 < UINT_MAX → st.score.getD j 0 ≤ cs + 1 := by
      intro j hj
      have := hinv.layered j iv hj hivu (by rw [hivs]; exact hlt) (List.mem_range.1 hivmem)
      rw [hivs] at this
      exact this
    have hle := hinv.score_le w.1
    have hold : w.2.1 = UINT_MAX := by
      by_contra hc
      have := hbound w.1 (by omega)
      omega
    have hused : used.getD w.1 false = false := by
      cases hx : used.getD w.1 false
      · rfl
      · have hm := hs.marked w.1 hx
        simp only at hm
        have hfin : st.score.getD w.1 0 < UINT_MAX := by
          rcases hm with hu | ⟨_, hu⟩
          · exact hinv.used_finite w.1 hu
          · exact hu
        omega
    refine ⟨by omega, hold, ?_, hused⟩
    cases hx : st.usedVertex.getD w.1 false
    · rfl
    · have := hs.mono w.1 hx
      simp only at this
      rw [this] at hused
      cases hused

/-- Witness of C19: the first round of scenario B, whose only write stores score 1 in
vertex 1 (`TOT`). -/
theorem score_writes_monotone_witness :
    (1, UINT_MAX, 1) ∈ roundWrites (build "TON".toList "KOT".toList dictB).words.length
        (build "TON".toList "KOT".toList dictB).indLast
        ((buildConnections dictB).getD []) (initState (build "TON".toList "KOT".toList dictB)) ∧
    (1 ≤ UINT_MAX ∧ UINT_MAX = UINT_MAX ∧
      (initState (build "TON".toList "KOT".toList dictB)).usedVertex.getD 1 false = false ∧
      (selectRound (build "TON".toList "KOT".toList dictB).words.length
        (initState (build "TON".toList "KOT".toList dictB))).2.2.getD 1 false = false) :=
  ⟨by decide,
    (score_writes_monotone "TON".toList "KOT".toList dictB (by decide) (by decide)
      ((buildConnections dictB).getD []) 0 (initState (build "TON".toList "KOT".toList dictB))
      rfl (by decide)).2 (1, UINT_MAX, 1) (by decide)⟩

/-- C20: the search loop of `Dict::connect` leaves at its `break` on every input. A round
that goes on to the relaxation marks a vertex that was unvisited before the round, no
round unmarks a vertex, so at most `N` rounds relax, and `N + 1` rounds of fuel are enough
for the loop to return. -/
theorem search_loop_terminates (d : Dict) (conn : List Bool) :
    (∃ st, searchLoop d.words.length d.indLast conn (d.words.length + 1) (initState d)
      = some st) ∧
    (∀ k st, stateAfter d.words.length d.indLast conn k (initState d) = some st →
      k ≤ d.words.length ∧
      (∀ i, st.usedVertex.getD i false = true →
        (searchRound d.words.length d.indLast conn st).1.usedVertex.getD i false = true) ∧
      ((searchRound d.words.length d.indLast conn st).2 = true →
        ∃ i, i < d.words.length ∧ st.usedVertex.getD i false = false ∧
          (searchRound d.words.length d.indLast conn st).1.usedVertex.getD i false = true)) := by
  have hlen : (initState d).usedVertex.length = d.words.length := by simp [initState]
  have hcount : (initState d).usedVertex.count false = d.words.length := by simp [initState]
  constructor
  · exact searchLoop_terminates _ _ conn _ _ hlen (by omega)
  · intro k st hst
    obtain ⟨g1, g2, _⟩ := stateAfter_used _ _ conn k _ st hlen hst
    have hr := searchRound_used d.words.length d.indLast conn st g1
    refine ⟨by omega, hr.2.1, ?_⟩
    intro hgo
    obtain ⟨_, h2, h3, h4⟩ := hr.2.2 hgo
    exact ⟨_, h2, h3, h4⟩

/-- Witness of C20: the first round of scenario B marks the begin vertex 2. -/
theorem search_loop_terminates_witness :
    ∃ i, i < (build "TON".toList "KOT".toList dictB).words.length ∧
      (initState (build "TON".toList "KOT".toList dictB)).usedVertex.getD i false = false ∧
      (searchRound (build "TON".toList "KOT".toList dictB).words.length
        (build "TON".toList "KOT".toList dictB).indLast ((buildConnections dictB).getD [])
        (initState (build "TON".toList "KOT".toList dictB))).1.usedVertex.getD i false
        = true :=
  ((search_loop_terminates (build "TON".toList "KOT".toList dictB)
    ((buildConnections dictB).getD [])).2 0 _ rfl).2.2 (by decide)

end Words
